import Mathlib

/-!
Verification of the QR-code codec (encoder and decoder) of the
`qrcode` JavaScript repository, against its natural-language
specification.  Pure fragments of `src/example/bundle.js` are embedded
shallowly as Lean functions: machine integers are modelled as `Nat`
(JavaScript `>>> 0` conversions become explicit reductions modulo
`2^32`), and fallible code returns `Except`/`Option`.
-/

/-- Mathlib polynomials over `GF(2) = ZMod 2`, the carrier for the
verification-side algebra of the Reed-Solomon code (declared outside
the `QR` namespace, where `Polynomial` names the source's coefficient
structure). -/
abbrev MPoly : Type := Polynomial (ZMod 2)

namespace QR

set_option maxRecDepth 40000

/-! ## `QRCode.prototype.setVersion` (bundle.js, QRCode module)

JavaScript: `this.version = Math.min(40, Math.max(0, version >>> 0));
this.autoVersion = this.version === 0;`.  `>>> 0` is ECMAScript
`ToUint32`, i.e. reduction modulo `2^32` for integral arguments. -/

/-- ECMAScript `ToUint32` of an integral value. -/
def toUint32 (n : Int) : Nat := (n % 4294967296).toNat

/-- `QRCode.prototype.setVersion`: the version stored after the call. -/
def setVersion (version : Int) : Nat := min 40 (max 0 (toUint32 version))

/-- `QRCode.prototype.setVersion`: the `autoVersion` flag stored after the call. -/
def autoVersionAfterSet (version : Int) : Bool := setVersion version == 0

/-! ## `computeDimension` (bundle.js, locator module)

The floating-point front end (finder-pattern distances divided by the
module size, then `Math.round`) is abstracted by taking the two rounded
counts `topDimension` and `sideDimension` as the inputs; the function
below is the exact integer tail of `computeDimension`. -/

/-- Integer tail of `computeDimension`: `Math.floor((topDimension +
sideDimension) / 2) + 7` followed by the `switch (dimension % 4)`
adjustment (`0` → `+1`, `2` → `-1`, other residues unchanged). -/
def computeDimension (topDimension sideDimension : Nat) : Nat :=
  let dimension := (topDimension + sideDimension) / 2 + 7
  if dimension % 4 = 0 then dimension + 1
  else if dimension % 4 = 2 then dimension - 1
  else dimension

/-! ## Kanji segment value mapping

`QRKanji.prototype.write` (encoder) maps one two-byte Shift-JIS code to
a 13-bit value; `decodeKanji` (decoder) maps a 13-bit value back to a
two-byte code. -/

/-- Per-character body of `QRKanji.prototype.write`: the 13-bit value
written for the two-byte code `code`, or an error for codes outside the
two ranges (JavaScript `throw createCharError(...)`). -/
def kanjiEncodeValue (code : Nat) : Except String Nat :=
  if 0x8140 ≤ code ∧ code ≤ 0x9ffc then
    let c := code - 0x8140
    .ok (((c >>> 8) &&& 0xff) * 0xc0 + (c &&& 0xff))
  else if 0xe040 ≤ code ∧ code ≤ 0xebbf then
    let c := code - 0xc140
    .ok (((c >>> 8) &&& 0xff) * 0xc0 + (c &&& 0xff))
  else .error "illegal char"

/-- Per-character body of `decodeKanji`: the two-byte code reconstructed
from a 13-bit group `k`. -/
def kanjiDecodeValue (k : Nat) : Nat :=
  let c := ((k / 0xc0) <<< 8) ||| (k % 0xc0)
  if c < 0x1f00 then c + 0x8140 else c + 0xc140

/-! ## BitBuffer (bundle.js, BitBuffer module)

A big-endian bit buffer over a growable byte array, mirrored field by
field (`length` is the bit count, `buffer` the byte list). -/

structure BitBuffer where
  length : Nat
  buffer : List Nat
deriving DecidableEq, Repr

def BitBuffer.empty : BitBuffer := ⟨0, []⟩

def BitBuffer.getLengthInBits (b : BitBuffer) : Nat := b.length

/-- `BitBuffer.prototype.getBit`. -/
def BitBuffer.getBit (b : BitBuffer) (index : Nat) : Bool :=
  (b.buffer.getD (index / 8) 0 >>> (7 - index % 8)) &&& 1 == 1

/-- `BitBuffer.prototype.putBit`. -/
def BitBuffer.putBit (b : BitBuffer) (bit : Bool) : BitBuffer :=
  let buf := if b.length = 8 * b.buffer.length then b.buffer ++ [0] else b.buffer
  let buf := if bit then
      buf.set (b.length / 8) (buf.getD (b.length / 8) 0 ||| (0x80 >>> (b.length % 8)))
    else buf
  ⟨b.length + 1, buf⟩

/-- `BitBuffer.prototype.put`: append the low `n` bits of `num`, most
significant first. -/
def BitBuffer.put (b : BitBuffer) (num n : Nat) : BitBuffer :=
  (List.range n).foldl (fun acc i => acc.putBit (((num >>> (n - i - 1)) &&& 1) == 1)) b

/-- Well-formedness invariant maintained by the JavaScript buffer: the
byte list is exactly `ceil(length/8)` long, holds bytes, and all bits
at positions ≥ `length` are still zero. -/
def BitBuffer.WF (b : BitBuffer) : Prop :=
  b.buffer.length = (b.length + 7) / 8 ∧
    (∀ n < b.buffer.length, b.buffer.getD n 0 < 256) ∧
    (∀ i < 8 * b.buffer.length, b.length ≤ i → b.getBit i = false)

instance (b : BitBuffer) : Decidable b.WF := by
  unfold BitBuffer.WF; infer_instance

/-- The sequence of bits held by the buffer. -/
def BitBuffer.bits (b : BitBuffer) : List Bool :=
  (List.range b.length).map b.getBit

/-! ## RS block table (bundle.js, RSBlock module) -/

structure RSBlock where
  totalCount : Nat
  dataCount : Nat
deriving DecidableEq, Repr

def RSBlock.getDataCount (b : RSBlock) : Nat := b.dataCount

def RSBlock.getTotalCount (b : RSBlock) : Nat := b.totalCount

/-- `RSBlock.RS_BLOCK_TABLE`: four rows (L, M, Q, H) per version, each
row a flat list of (count, totalCount, dataCount) triples. -/
def RS_BLOCK_TABLE : List (List Nat) := [
    -- version 1
    [1, 26, 19],
    [1, 26, 16],
    [1, 26, 13],
    [1, 26, 9],
    -- version 2
    [1, 44, 34],
    [1, 44, 28],
    [1, 44, 22],
    [1, 44, 16],
    -- version 3
    [1, 70, 55],
    [1, 70, 44],
    [2, 35, 17],
    [2, 35, 13],
    -- version 4
    [1, 100, 80],
    [2, 50, 32],
    [2, 50, 24],
    [4, 25, 9],
    -- version 5
    [1, 134, 108],
    [2, 67, 43],
    [2, 33, 15, 2, 34, 16],
    [2, 33, 11, 2, 34, 12],
    -- version 6
    [2, 86, 68],
    [4, 43, 27],
    [4, 43, 19],
    [4, 43, 15],
    -- version 7
    [2, 98, 78],
    [4, 49, 31],
    [2, 32, 14, 4, 33, 15],
    [4, 39, 13, 1, 40, 14],
    -- version 8
    [2, 121, 97],
    [2, 60, 38, 2, 61, 39],
    [4, 40, 18, 2, 41, 19],
    [4, 40, 14, 2, 41, 15],
    -- version 9
    [2, 146, 116],
    [3, 58, 36, 2, 59, 37],
    [4, 36, 16, 4, 37, 17],
    [4, 36, 12, 4, 37, 13],
    -- version 10
    [2, 86, 68, 2, 87, 69],
    [4, 69, 43, 1, 70, 44],
    [6, 43, 19, 2, 44, 20],
    [6, 43, 15, 2, 44, 16],
    -- version 11
    [4, 101, 81],
    [1, 80, 50, 4, 81, 51],
    [4, 50, 22, 4, 51, 23],
    [3, 36, 12, 8, 37, 13],
    -- version 12
    [2, 116, 92, 2, 117, 93],
    [6, 58, 36, 2, 59, 37],
    [4, 46, 20, 6, 47, 21],
    [7, 42, 14, 4, 43, 15],
    -- version 13
    [4, 133, 107],
    [8, 59, 37, 1, 60, 38],
    [8, 44, 20, 4, 45, 21],
    [12, 33, 11, 4, 34, 12],
    -- version 14
    [3, 145, 115, 1, 146, 116],
    [4, 64, 40, 5, 65, 41],
    [11, 36, 16, 5, 37, 17],
    [11, 36, 12, 5, 37, 13],
    -- version 15
    [5, 109, 87, 1, 110, 88],
    [5, 65, 41, 5, 66, 42],
    [5, 54, 24, 7, 55, 25],
    [11, 36, 12, 7, 37, 13],
    -- version 16
    [5, 122, 98, 1, 123, 99],
    [7, 73, 45, 3, 74, 46],
    [15, 43, 19, 2, 44, 20],
    [3, 45, 15, 13, 46, 16],
    -- version 17
    [1, 135, 107, 5, 136, 108],
    [10, 74, 46, 1, 75, 47],
    [1, 50, 22, 15, 51, 23],
    [2, 42, 14, 17, 43, 15],
    -- version 18
    [5, 150, 120, 1, 151, 121],
    [9, 69, 43, 4, 70, 44],
    [17, 50, 22, 1, 51, 23],
    [2, 42, 14, 19, 43, 15],
    -- version 19
    [3, 141, 113, 4, 142, 114],
    [3, 70, 44, 11, 71, 45],
    [17, 47, 21, 4, 48, 22],
    [9, 39, 13, 16, 40, 14],
    -- version 20
    [3, 135, 107, 5, 136, 108],
    [3, 67, 41, 13, 68, 42],
    [15, 54, 24, 5, 55, 25],
    [15, 43, 15, 10, 44, 16],
    -- version 21
    [4, 144, 116, 4, 145, 117],
    [17, 68, 42],
    [17, 50, 22, 6, 51, 23],
    [19, 46, 16, 6, 47, 17],
    -- version 22
    [2, 139, 111, 7, 140, 112],
    [17, 74, 46],
    [7, 54, 24, 16, 55, 25],
    [34, 37, 13],
    -- version 23
    [4, 151, 121, 5, 152, 122],
    [4, 75, 47, 14, 76, 48],
    [11, 54, 24, 14, 55, 25],
    [16, 45, 15, 14, 46, 16],
    -- version 24
    [6, 147, 117, 4, 148, 118],
    [6, 73, 45, 14, 74, 46],
    [11, 54, 24, 16, 55, 25],
    [30, 46, 16, 2, 47, 17],
    -- version 25
    [8, 132, 106, 4, 133, 107],
    [8, 75, 47, 13, 76, 48],
    [7, 54, 24, 22, 55, 25],
    [22, 45, 15, 13, 46, 16],
    -- version 26
    [10, 142, 114, 2, 143, 115],
    [19, 74, 46, 4, 75, 47],
    [28, 50, 22, 6, 51, 23],
    [33, 46, 16, 4, 47, 17],
    -- version 27
    [8, 152, 122, 4, 153, 123],
    [22, 73, 45, 3, 74, 46],
    [8, 53, 23, 26, 54, 24],
    [12, 45, 15, 28, 46, 16],
    -- version 28
    [3, 147, 117, 10, 148, 118],
    [3, 73, 45, 23, 74, 46],
    [4, 54, 24, 31, 55, 25],
    [11, 45, 15, 31, 46, 16],
    -- version 29
    [7, 146, 116, 7, 147, 117],
    [21, 73, 45, 7, 74, 46],
    [1, 53, 23, 37, 54, 24],
    [19, 45, 15, 26, 46, 16],
    -- version 30
    [5, 145, 115, 10, 146, 116],
    [19, 75, 47, 10, 76, 48],
    [15, 54, 24, 25, 55, 25],
    [23, 45, 15, 25, 46, 16],
    -- version 31
    [13, 145, 115, 3, 146, 116],
    [2, 74, 46, 29, 75, 47],
    [42, 54, 24, 1, 55, 25],
    [23, 45, 15, 28, 46, 16],
    -- version 32
    [17, 145, 115],
    [10, 74, 46, 23, 75, 47],
    [10, 54, 24, 35, 55, 25],
    [19, 45, 15, 35, 46, 16],
    -- version 33
    [17, 145, 115, 1, 146, 116],
    [14, 74, 46, 21, 75, 47],
    [29, 54, 24, 19, 55, 25],
    [11, 45, 15, 46, 46, 16],
    -- version 34
    [13, 145, 115, 6, 146, 116],
    [14, 74, 46, 23, 75, 47],
    [44, 54, 24, 7, 55, 25],
    [59, 46, 16, 1, 47, 17],
    -- version 35
    [12, 151, 121, 7, 152, 122],
    [12, 75, 47, 26, 76, 48],
    [39, 54, 24, 14, 55, 25],
    [22, 45, 15, 41, 46, 16],
    -- version 36
    [6, 151, 121, 14, 152, 122],
    [6, 75, 47, 34, 76, 48],
    [46, 54, 24, 10, 55, 25],
    [2, 45, 15, 64, 46, 16],
    -- version 37
    [17, 152, 122, 4, 153, 123],
    [29, 74, 46, 14, 75, 47],
    [49, 54, 24, 10, 55, 25],
    [24, 45, 15, 46, 46, 16],
    -- version 38
    [4, 152, 122, 18, 153, 123],
    [13, 74, 46, 32, 75, 47],
    [48, 54, 24, 14, 55, 25],
    [42, 45, 15, 32, 46, 16],
    -- version 39
    [20, 147, 117, 4, 148, 118],
    [40, 75, 47, 7, 76, 48],
    [43, 54, 24, 22, 55, 25],
    [10, 45, 15, 67, 46, 16],
    -- version 40
    [19, 148, 118, 6, 149, 119],
    [18, 75, 47, 31, 76, 48],
    [34, 54, 24, 34, 55, 25],
    [20, 45, 15, 61, 46, 16]
  ]

/-- `RSBlock.getRSBlockTable`: the error-correct levels are encoded on
the wire as L=1, M=0, Q=3, H=2 and index the table rows in that order. -/
def getRSBlockTable (version errorCorrectLevel : Nat) : Except String (List Nat) :=
  if errorCorrectLevel = 1 then .ok (RS_BLOCK_TABLE.getD ((version - 1) * 4 + 0) [])
  else if errorCorrectLevel = 0 then .ok (RS_BLOCK_TABLE.getD ((version - 1) * 4 + 1) [])
  else if errorCorrectLevel = 3 then .ok (RS_BLOCK_TABLE.getD ((version - 1) * 4 + 2) [])
  else if errorCorrectLevel = 2 then .ok (RS_BLOCK_TABLE.getD ((version - 1) * 4 + 3) [])
  else .error s!"illegal error correct level: {errorCorrectLevel}"

/-- `RSBlock.getRSBlocks`: expand each (count, totalCount, dataCount)
triple of the table row into `count` blocks. -/
def getRSBlocks (version errorCorrectLevel : Nat) : Except String (List RSBlock) :=
  (getRSBlockTable version errorCorrectLevel).map fun rsBlock =>
    (List.range (rsBlock.length / 3)).flatMap fun i =>
      List.replicate (rsBlock.getD (i * 3) 0)
        ⟨rsBlock.getD (i * 3 + 1) 0, rsBlock.getD (i * 3 + 2) 0⟩

/-- The `maxDataCount` computed by `QRCode.prepareData`:
`8 · Σ dataCount` over the RS blocks. -/
def maxDataCountOf (rsBlocks : List RSBlock) : Nat :=
  8 * (rsBlocks.map RSBlock.getDataCount).sum

/-! ## Data segments (bundle.js, QRByte / QRNumeric / QRAlphanumeric /
QRKanji modules)

A segment is modelled as its mode tag plus its payload after the
string-level front end: UTF-8 bytes for Byte mode, digit character
codes for Numeric, character codes for Alphanumeric, and Shift-JIS
bytes for Kanji (the base64-embedded Unicode↔Shift-JIS table is the
string front end and is out of the modelled core). -/

inductive QRData where
  | byte (data : List Nat)
  | numeric (data : List Nat)
  | alphanumeric (data : List Nat)
  | kanji (data : List Nat)
deriving DecidableEq, Repr

/-- The 4-bit mode indicator (`Mode` enum): Numeric=1, Alphanumeric=2,
Byte=4, Kanji=8. -/
def QRData.modeValue : QRData → Nat
  | .byte _ => 4
  | .numeric _ => 1
  | .alphanumeric _ => 2
  | .kanji _ => 8

/-- `getLength` of each segment class (Kanji divides the Shift-JIS byte
count by two). -/
def QRData.getLength : QRData → Nat
  | .byte d => d.length
  | .numeric d => d.length
  | .alphanumeric d => d.length
  | .kanji d => d.length / 2

/-- `QRData.prototype.getLengthInBits`: width of the character-count
indicator by mode and version size class.  Note the source checks
`1 <= version && version < 10` for the first class but only
`version < 27` / `version < 41` afterwards, so version 0 falls into
the middle class. -/
def getLengthInBits (mode version : Nat) : Except String Nat :=
  if 1 ≤ version ∧ version < 10 then
    if mode = 1 then .ok 10 else if mode = 2 then .ok 9
    else if mode = 4 then .ok 8 else if mode = 8 then .ok 8
    else .error s!"illegal mode: {mode}"
  else if version < 27 then
    if mode = 1 then .ok 12 else if mode = 2 then .ok 11
    else if mode = 4 then .ok 16 else if mode = 8 then .ok 10
    else .error s!"illegal mode: {mode}"
  else if version < 41 then
    if mode = 1 then .ok 14 else if mode = 2 then .ok 13
    else if mode = 4 then .ok 16 else if mode = 8 then .ok 12
    else .error s!"illegal mode: {mode}"
  else .error s!"illegal version: {version}"

/-- `QRNumeric.charToNum`. -/
def charToNum (ch : Nat) : Except String Nat :=
  if 0x30 ≤ ch ∧ ch ≤ 0x39 then .ok (ch - 0x30) else .error "illegal char"

/-- `QRNumeric.strToNum`. -/
def strToNum (chars : List Nat) : Except String Nat :=
  chars.foldlM (fun num ch => do pure (num * 10 + (← charToNum ch))) 0

/-- `QRNumeric.prototype.write`: digits in groups of three → 10 bits,
a trailing pair → 7 bits, a trailing single digit → 4 bits. -/
def numericWrite (data : List Nat) (buffer : BitBuffer) : Except String BitBuffer :=
  match data with
  | c1 :: c2 :: c3 :: rest => do
    let v ← strToNum [c1, c2, c3]
    numericWrite rest (buffer.put v 10)
  | [c1, c2] => do
    let v ← strToNum [c1, c2]
    pure (buffer.put v 7)
  | [c1] => do
    let v ← strToNum [c1]
    pure (buffer.put v 4)
  | [] => pure buffer

/-- `QRAlphanumeric.getCode`: the 45-character alphanumeric alphabet. -/
def getCode (ch : Nat) : Except String Nat :=
  if 0x30 ≤ ch ∧ ch ≤ 0x39 then .ok (ch - 0x30)
  else if 0x41 ≤ ch ∧ ch ≤ 0x5a then .ok (ch - 0x41 + 10)
  else if ch = 0x20 then .ok 36
  else if ch = 0x24 then .ok 37
  else if ch = 0x25 then .ok 38
  else if ch = 0x2a then .ok 39
  else if ch = 0x2b then .ok 40
  else if ch = 0x2d then .ok 41
  else if ch = 0x2e then .ok 42
  else if ch = 0x2f then .ok 43
  else if ch = 0x3a then .ok 44
  else .error "illegal char"

/-- `QRAlphanumeric.prototype.write`: pairs → 11 bits, a trailing
single character → 6 bits. -/
def alphanumericWrite (data : List Nat) (buffer : BitBuffer) : Except String BitBuffer :=
  match data with
  | c1 :: c2 :: rest => do
    let a ← getCode c1
    let b ← getCode c2
    alphanumericWrite rest (buffer.put (a * 45 + b) 11)
  | [c1] => do
    let a ← getCode c1
    pure (buffer.put a 6)
  | [] => pure buffer

/-- `QRByte.prototype.write`: 8 bits per UTF-8 byte. -/
def byteWrite (data : List Nat) (buffer : BitBuffer) : BitBuffer :=
  data.foldl (fun acc byte => acc.put byte 8) buffer

/-- `QRKanji.prototype.write`: two Shift-JIS bytes at a time, each
mapped to a 13-bit value; a trailing lone byte is an error. -/
def kanjiWrite (data : List Nat) (buffer : BitBuffer) : Except String BitBuffer :=
  match data with
  | b0 :: b1 :: rest => do
    let code := ((0xff &&& b0) <<< 8) ||| (0xff &&& b1)
    let k ← kanjiEncodeValue code
    kanjiWrite rest (buffer.put k 13)
  | [_] => .error "illegal char"
  | [] => pure buffer

/-- `QRData.write` dispatch. -/
def QRData.write : QRData → BitBuffer → Except String BitBuffer
  | .byte d, buffer => pure (byteWrite d buffer)
  | .numeric d, buffer => numericWrite d buffer
  | .alphanumeric d, buffer => alphanumericWrite d buffer
  | .kanji d, buffer => kanjiWrite d buffer

/-! ## QRCode.prepareData / QRCode.createData (bundle.js, QRCode module) -/

def PAD0 : Nat := 0xec
def PAD1 : Nat := 0x11

/-- `QRCode.prepareData`: write the 4-bit mode indicator, the
character-count indicator, and the body of every segment, and return
the buffer together with the RS blocks and `maxDataCount`. -/
def prepareData (version errorCorrectLevel : Nat) (dataList : List QRData) :
    Except String (BitBuffer × List RSBlock × Nat) := do
  let rsBlocks ← getRSBlocks version errorCorrectLevel
  let buffer ← dataList.foldlM (fun buffer data => do
    let buffer := buffer.put data.modeValue 4
    let n ← getLengthInBits data.modeValue version
    data.write (buffer.put data.getLength n)) BitBuffer.empty
  pure (buffer, rsBlocks, maxDataCountOf rsBlocks)

/-- The byte-alignment loop of `QRCode.createData`:
`while (buffer.getLengthInBits() % 8 !== 0) buffer.putBit(false)`. -/
def padToByte (buffer : BitBuffer) : BitBuffer :=
  if buffer.length % 8 = 0 then buffer else padToByte (buffer.putBit false)
termination_by (8 - buffer.length % 8) % 8
decreasing_by
  have h : (buffer.putBit false).length = buffer.length + 1 := rfl
  rw [h]; omega

/-- The padding loop of `QRCode.createData`: append `PAD0` and `PAD1`
bytes alternately until `maxDataCount` bits are reached. -/
def fillPad (buffer : BitBuffer) (maxDataCount : Nat) : BitBuffer :=
  if maxDataCount ≤ buffer.length then buffer
  else
    let b1 := buffer.put PAD0 8
    if maxDataCount ≤ b1.length then b1
    else fillPad (b1.put PAD1 8) maxDataCount
termination_by maxDataCount - buffer.length
decreasing_by
  have h : ((buffer.put PAD0 8).put PAD1 8).length = buffer.length + 16 := rfl
  rw [h]; omega

/-- The buffer-level part of `QRCode.createData`: the overflow check,
the up-to-4-bit terminator, byte alignment, and alternate padding. -/
def createDataBuffer (buffer : BitBuffer) (maxDataCount : Nat) :
    Except String BitBuffer :=
  if maxDataCount < buffer.getLengthInBits then
    .error s!"data overflow: {buffer.getLengthInBits} > {maxDataCount}"
  else
    let buffer := if buffer.getLengthInBits + 4 ≤ maxDataCount then buffer.put 0 4 else buffer
    let buffer := padToByte buffer
    .ok (fillPad buffer maxDataCount)


/-! ## GF(2^8) tables (bundle.js, QRMath module)

`EXP_TABLE[i] = i < 8 ? 1 << i : EXP[i-4] ^ EXP[i-5] ^ EXP[i-6] ^ EXP[i-8]`,
built by one pass over `0..255`; `LOG_TABLE` starts as zeros and gets
`LOG_TABLE[EXP_TABLE[i]] = i` for `i ∈ [0, 254]`. -/

def EXP_TABLE : List Nat :=
  (List.range 256).foldl (fun t i =>
    t ++ [if i < 8 then 1 <<< i
          else t.getD (i - 4) 0 ^^^ t.getD (i - 5) 0 ^^^ t.getD (i - 6) 0 ^^^ t.getD (i - 8) 0]) []

def LOG_TABLE : List Nat :=
  (List.range 255).foldl (fun t i => t.set (EXP_TABLE.getD i 0) i) (List.replicate 256 0)

/-- `glog`.  The source throws for `n < 1`; `LOG_TABLE[0]` is never
written by the construction loop, so this total lookup agrees with the
source at every call site the source reaches without throwing (the
relevant call sites are shown below to receive arguments in `[1, 255]`). -/
def glogT (n : Nat) : Nat := LOG_TABLE.getD n 0

/-- The `while (n < 0) n += 255` loop of `gexp`; the fuel is structural
and `(-n).toNat` steps always suffice (each iteration adds 255). -/
def gexpUpNormAux : Nat → Int → Int
  | 0, n => n
  | fuel + 1, n => if n < 0 then gexpUpNormAux fuel (n + 255) else n

def gexpUpNorm (n : Int) : Int := gexpUpNormAux (-n).toNat n

/-- The `while (n >= 256) n -= 255` loop of `gexp`; the fuel is
structural and `n.toNat` steps always suffice. -/
def gexpDownNormAux : Nat → Int → Int
  | 0, n => n
  | fuel + 1, n => if 256 ≤ n then gexpDownNormAux fuel (n - 255) else n

def gexpDownNorm (n : Int) : Int := gexpDownNormAux n.toNat n

/-- `gexp`. -/
def gexp (n : Int) : Nat := EXP_TABLE.getD (gexpDownNorm (gexpUpNorm n)).toNat 0

/-! ## Polynomial over GF(2^8) (bundle.js, Polynomial module)

Coefficient list, highest degree first. -/

structure Polynomial where
  num : List Nat
deriving DecidableEq, Repr

/-- The `Polynomial` constructor: strip leading zeros of `num`, then
append `shift` zeros. -/
def Polynomial.make (num : List Nat) (shift : Nat) : Polynomial :=
  ⟨num.dropWhile (· == 0) ++ List.replicate shift 0⟩

def Polynomial.getAt (p : Polynomial) (index : Nat) : Nat := p.num.getD index 0

def Polynomial.getLength (p : Polynomial) : Nat := p.num.length

/-- `Polynomial.prototype.multiply`: convolution with
`num[i+j] ^= gexp(glog(this.getAt(i)) + glog(e.getAt(j)))`. -/
def Polynomial.multiply (p e : Polynomial) : Polynomial :=
  let num := (List.range p.getLength).foldl (fun acc i =>
      (List.range e.getLength).foldl (fun acc2 j =>
        acc2.set (i + j) (acc2.getD (i + j) 0 ^^^
          gexp ((glogT (p.getAt i) : Int) + glogT (e.getAt j)))) acc)
    (List.replicate (p.getLength + e.getLength - 1) 0)
  Polynomial.make num 0

/-- One round of `Polynomial.prototype.mod`: copy the coefficients and
subtract `e` scaled by `gexp(ratio)` from the leading end. -/
def Polynomial.modStep (p e : Polynomial) : Polynomial :=
  let ratio : Int := (glogT (p.getAt 0) : Int) - glogT (e.getAt 0)
  Polynomial.make ((List.range p.getLength).map fun i =>
    if i < e.getLength then p.getAt i ^^^ gexp ((glogT (e.getAt i) : Int) + ratio)
    else p.getAt i) 0

/-- `Polynomial.prototype.mod`, with explicit fuel standing in for the
JavaScript recursion (each round cancels the leading coefficient, so
`getLength` rounds always suffice; see `polyMod_length_lt` below). -/
def Polynomial.modAux : Nat → Polynomial → Polynomial → Polynomial
  | fuel, p, e =>
    if p.getLength < e.getLength then p
    else
      match fuel with
      | 0 => p
      | fuel + 1 => Polynomial.modAux fuel (p.modStep e) e

def Polynomial.mod (p e : Polynomial) : Polynomial := Polynomial.modAux p.getLength p e

/-- `getErrorCorrectPolynomial`: `∏_{i<t} (x - α^i)` built by repeated
`multiply`. -/
def getErrorCorrectPolynomial (errorCorrectLength : Nat) : Polynomial :=
  (List.range errorCorrectLength).foldl
    (fun e i => e.multiply (Polynomial.make [1, gexp (i : Int)] 0))
    (Polynomial.make [1] 0)

/-! ## QRCode.createBytes / QRCode.createData / QRCode.prototype.make -/

/-- The per-block loop of `QRCode.createBytes`: slice `dcCount` bytes
out of the buffer (masked with `0xff`), divide by the generator, and
left-pad the remainder to the ECC length.  Returns the list of
`(dcData, ecData)` pairs. -/
def createBlockData (buffer : BitBuffer) (rsBlocks : List RSBlock) :
    List (List Nat × List Nat) :=
  (rsBlocks.foldl (fun (st : Nat × List (List Nat × List Nat)) rsBlock =>
    let offset := st.1
    let dcCount := rsBlock.getDataCount
    let ecCount := rsBlock.getTotalCount - dcCount
    let dcData := (List.range dcCount).map fun i => 0xff &&& buffer.buffer.getD (i + offset) 0
    let rsPoly := getErrorCorrectPolynomial ecCount
    let rawPoly := Polynomial.make dcData (rsPoly.getLength - 1)
    let modPoly := rawPoly.mod rsPoly
    let ecLength := rsPoly.getLength - 1
    let ecData := (List.range ecLength).map fun (i : Nat) =>
      let modIndex : Int := (i : Int) + modPoly.getLength - ecLength
      if 0 ≤ modIndex then modPoly.getAt modIndex.toNat else 0
    (offset + dcCount, st.2 ++ [(dcData, ecData)])) (0, [])).2

/-- The interleaving tail of `QRCode.createBytes`: data codewords
column-major across blocks, then ECC codewords column-major. -/
def createBytes (buffer : BitBuffer) (rsBlocks : List RSBlock) : List Nat :=
  let blocks := createBlockData buffer rsBlocks
  let maxDcCount := (blocks.map fun bl => bl.1.length).foldl max 0
  let maxEcCount := (blocks.map fun bl => bl.2.length).foldl max 0
  ((List.range maxDcCount).flatMap fun i => blocks.filterMap fun bl => bl.1.get? i) ++
  ((List.range maxEcCount).flatMap fun i => blocks.filterMap fun bl => bl.2.get? i)

/-- `QRCode.createData`: overflow check, terminator, padding, then
`createBytes`. -/
def createData (buffer : BitBuffer) (rsBlocks : List RSBlock) (maxDataCount : Nat) :
    Except String (List Nat) :=
  (createDataBuffer buffer maxDataCount).map fun b => createBytes b rsBlocks

/-- The auto-version loop of `QRCode.prototype.make`:
`for (this.version = 1; this.version <= 40; this.version++) { prepare;
if (fits) break }`.  When no version fits, the loop leaves `version`
at 41 with the data prepared for version 40.  The structural `fuel`
argument equals `40 - v`, the number of remaining loop iterations. -/
def autoVersionLoopAux (errorCorrectLevel : Nat) (dataList : List QRData) :
    Nat → Nat → Except String (Nat × BitBuffer × List RSBlock × Nat)
  | fuel, v => do
    let r ← prepareData v errorCorrectLevel dataList
    if r.1.getLengthInBits ≤ r.2.2 then pure (v, r)
    else
      match fuel with
      | 0 => pure (v + 1, r)
      | fuel + 1 =>
        if v < 40 then autoVersionLoopAux errorCorrectLevel dataList fuel (v + 1)
        else pure (v + 1, r)

def autoVersionLoop (errorCorrectLevel : Nat) (dataList : List QRData) (v : Nat) :
    Except String (Nat × BitBuffer × List RSBlock × Nat) :=
  autoVersionLoopAux errorCorrectLevel dataList (40 - v) v

/-- `QRCode.prototype.make` up to and including `createData` (the
matrix-building tail is modelled separately): returns the version used
and the interleaved data-plus-ECC codewords. -/
def makeEncode (version : Nat) (autoVersion : Bool) (errorCorrectLevel : Nat)
    (dataList : List QRData) : Except String (Nat × List Nat) := do
  let (v, buffer, rsBlocks, maxDataCount) ←
    if autoVersion then autoVersionLoop errorCorrectLevel dataList 1
    else do
      let r ← prepareData version errorCorrectLevel dataList
      pure (version, r)
  let data ← createData buffer rsBlocks maxDataCount
  pure (v, data)



/-- Whether the payload fits version `v`: `prepareData` succeeds and the
written bits do not exceed `maxDataCount` (the auto-version loop's exit
condition). -/
def fitsVersion (errorCorrectLevel : Nat) (dataList : List QRData) (v : Nat) : Bool :=
  match prepareData v errorCorrectLevel dataList with
  | .ok (b, _, m) => decide (b.getLengthInBits ≤ m)
  | .error _ => false

/-! ## Specification-side descriptions of the padding layout (C3) -/

/-- Terminator length: 4 zero bits when at least 4 bits remain. -/
def terminatorLength (len maxDataCount : Nat) : Nat :=
  if len + 4 ≤ maxDataCount then 4 else 0

/-- Zero bits needed to reach the next byte boundary after the
terminator. -/
def alignLength (len maxDataCount : Nat) : Nat :=
  (8 - (len + terminatorLength len maxDataCount) % 8) % 8

/-- Number of whole padding bytes appended after byte alignment. -/
def padByteCount (len maxDataCount : Nat) : Nat :=
  (maxDataCount - (len + terminatorLength len maxDataCount +
    alignLength len maxDataCount)) / 8

/-- Big-endian bits of one byte. -/
def byteBits (v : Nat) : List Bool := (List.range 8).map fun t => v.testBit (7 - t)

/-- The bits of `k` padding bytes: `0xEC` and `0x11` alternating,
`0xEC` first. -/
def padPatternBits (k : Nat) : List Bool :=
  (List.range k).flatMap fun j => byteBits (if j % 2 = 0 then PAD0 else PAD1)


/-! ## Mask evaluation (bundle.js, QRUtil module)

`getPenaltyScore`'s rule-1 loop counts, for every module, its
same-coloured neighbours in the surrounding 3×3 window and adds
`3 + sameCount - 5` whenever `sameCount > 5`.  (The matrix is the
`modules` array of the QRCode object; after `makeImpl` every cell is a
boolean, and `isDark` returns `false` for out-of-range/null cells.) -/

def isDarkM (modules : List (List Bool)) (row col : Nat) : Bool :=
  (modules.getD row []).getD col false

/-- The rule-1 loop of `getPenaltyScore`, translated loop for loop
(`r`/`c` run over `-1, 0, 1` with bound checks and the centre cell
skipped). -/
def penaltyRule1 (modules : List (List Bool)) : Nat :=
  let moduleCount := modules.length
  ((List.range moduleCount).map fun row =>
    ((List.range moduleCount).map fun col =>
      let dark := isDarkM modules row col
      let sameCount :=
        (([-1, 0, 1] : List Int).map fun r =>
          (([-1, 0, 1] : List Int).map fun c =>
            if (row : Int) + r < 0 ∨ (moduleCount : Int) ≤ (row : Int) + r then 0
            else if (col : Int) + c < 0 ∨ (moduleCount : Int) ≤ (col : Int) + c then 0
            else if r = 0 ∧ c = 0 then 0
            else if dark == isDarkM modules ((row : Int) + r).toNat ((col : Int) + c).toNat
              then 1 else 0).sum).sum
      if sameCount > 5 then 3 + sameCount - 5 else 0).sum).sum

/-- Specification-side count of same-coloured neighbours of a module
among its (up to 8) adjacent cells. -/
def sameNeighborCount (modules : List (List Bool)) (row col : Nat) : Nat :=
  (([(-1, -1), (-1, 0), (-1, 1), (0, -1), (0, 1), (1, -1), (1, 0), (1, 1)] :
      List (Int × Int)).map fun rc =>
    if (row : Int) + rc.1 < 0 ∨ (modules.length : Int) ≤ (row : Int) + rc.1 then 0
    else if (col : Int) + rc.2 < 0 ∨ (modules.length : Int) ≤ (col : Int) + rc.2 then 0
    else if isDarkM modules row col ==
        isDarkM modules ((row : Int) + rc.1).toNat ((col : Int) + rc.2).toNat
      then 1 else 0).sum

/-- Specification-side restatement of the implemented rule 1: each
module with more than 5 same-coloured neighbours contributes
`3 + (sameNeighborCount - 5)`. -/
def neighborRule1 (modules : List (List Bool)) : Nat :=
  ((List.range modules.length).map fun row =>
    ((List.range modules.length).map fun col =>
      if 5 < sameNeighborCount modules row col
      then 3 + (sameNeighborCount modules row col - 5) else 0).sum).sum

/-- Lengths of the maximal runs of equal consecutive elements. -/
def runLengthsAux : Bool → Nat → List Bool → List Nat
  | _, n, [] => [n]
  | cur, n, y :: ys =>
    if y == cur then runLengthsAux cur (n + 1) ys else n :: runLengthsAux y 1 ys

def runLengths : List Bool → List Nat
  | [] => []
  | x :: xs => runLengthsAux x 1 xs

/-- ISO 18004 rule 1 for a single line: each maximal run of 5 or more
identical modules adds `3 + (run - 5)`. -/
def lineRunScore (l : List Bool) : Nat :=
  ((runLengths l).map fun n => if 5 ≤ n then 3 + (n - 5) else 0).sum

/-- The run-based rule 1 the claim describes: summed over all rows and
all columns. -/
def runRule1 (modules : List (List Bool)) : Nat :=
  (modules.map lineRunScore).sum + (modules.transpose.map lineRunScore).sum

/-- `QRCode.prototype.getBestMaskPattern`, with the composite
`makeImpl(true, data, i)` followed by `getPenaltyScore(this)` abstracted
as the score oracle `score i`: `minimum = 0; pattern = 0; for i in 0..7:
if (i === 0 || minimum > score(i)) { pattern = i; minimum = score(i) }`. -/
def getBestMaskPattern (score : Nat → Nat) : Nat :=
  ((List.range 8).foldl
    (fun (st : Nat × Nat) i => if i = 0 ∨ st.1 > score i then (score i, i) else st)
    (0, 0)).2


/-! ## BitStream (bundle.js, BitStream module)

Shifts are modelled on `Nat`; the JavaScript `<<`/`|` arithmetic stays
below 2^32 for every read the decoder issues (at most 21 bits). -/

structure BitStream where
  bytes : List Nat
  byteOffset : Nat
  bitOffset : Nat
deriving DecidableEq, Repr

def BitStream.available (s : BitStream) : Nat :=
  8 * (s.bytes.length - s.byteOffset) - s.bitOffset

/-- The `while (numBits >= 8)` whole-byte loop of `readBits`; the fuel
is structural and is always called with `fuel = numBits`, which bounds
the iteration count. -/
def readWholeBytes : Nat → Nat → Nat → BitStream → Nat × Nat × BitStream
  | 0, result, numBits, s => (result, numBits, s)
  | fuel + 1, result, numBits, s =>
    if 8 ≤ numBits then
      readWholeBytes fuel ((result <<< 8) ||| (s.bytes.getD s.byteOffset 0 &&& 0xff))
        (numBits - 8) ⟨s.bytes, s.byteOffset + 1, s.bitOffset⟩
    else (result, numBits, s)

/-- `BitStream.prototype.readBits`. -/
def BitStream.readBits (s : BitStream) (numBits : Nat) : Except String (Nat × BitStream) :=
  if numBits < 1 ∨ 32 < numBits ∨ s.available < numBits then
    .error s!"can't read {numBits} bits"
  else
    -- first, read the remainder of the current byte
    let (result, numBits, s) :=
      if 0 < s.bitOffset then
        let bitsLeft := 8 - s.bitOffset
        let toRead := if numBits < bitsLeft then numBits else bitsLeft
        let bitsToNotRead := bitsLeft - toRead
        let mask := (0xff >>> (8 - toRead)) <<< bitsToNotRead
        let result := (s.bytes.getD s.byteOffset 0 &&& mask) >>> bitsToNotRead
        let bitOffset := s.bitOffset + toRead
        if bitOffset = 8 then (result, numBits - toRead, (⟨s.bytes, s.byteOffset + 1, 0⟩ : BitStream))
        else (result, numBits - toRead, (⟨s.bytes, s.byteOffset, bitOffset⟩ : BitStream))
      else (0, numBits, s)
    -- next, read whole bytes
    let (result, numBits, s) := readWholeBytes numBits result numBits s
    -- finally, read a partial byte
    if 0 < numBits then
      let bitsToNotRead := 8 - numBits
      let mask := (0xff >>> bitsToNotRead) <<< bitsToNotRead
      let result := (result <<< numBits) |||
        ((s.bytes.getD s.byteOffset 0 &&& mask) >>> bitsToNotRead)
      .ok (result, ⟨s.bytes, s.byteOffset, s.bitOffset + numBits⟩)
    else .ok (result, s)

/-! ## Segment decoder (bundle.js, `decode$1` and helpers)

`text` fields are tracked as byte lists (for Kanji the Shift-JIS bytes;
the base64-embedded Shift-JIS→Unicode table is outside the modelled
core). -/

inductive Chunk where
  | numeric (bytes : List Nat)
  | alphanumeric (bytes : List Nat)
  | byteChunk (bytes : List Nat)
  | kanji (bytes : List Nat)
  | eci (assignmentNumber : Int)
  | structuredAppend (m n parity : Nat)
deriving DecidableEq, Repr

structure DecResult where
  bytes : List Nat
  chunks : List Chunk
deriving DecidableEq, Repr

/-- Outcome of `decode$1`: a returned result, the implicit `undefined`
return when trailing bits are non-zero, or a thrown exception.  The
thrown case also records the chunks gathered before the throw (ghost
data that the JavaScript exception discards), so that theorems can
speak about what is lost. -/
inductive DecodeOutcome where
  | ok (result : DecResult)
  | trailingBits
  | threw (msg : String) (gathered : DecResult)
deriving DecidableEq, Repr

/-- `decodeNumeric`'s digit loop (groups of 3/2/1 digits from 10/7/4
bits); returns the pushed digit character codes. -/
def decodeNumericLoop : Nat → List Nat → BitStream → Except String (List Nat × BitStream)
  | length + 3, bytes, stream => do
    let (num, stream) ← stream.readBits 10
    if 1000 ≤ num then .error "invalid numeric value above 999"
    else
      decodeNumericLoop length
        (bytes ++ [48 + num / 100, 48 + num / 10 % 10, 48 + num % 10]) stream
  | 2, bytes, stream => do
    let (num, stream) ← stream.readBits 7
    if 100 ≤ num then .error "invalid numeric value above 99"
    else pure (bytes ++ [48 + num / 10, 48 + num % 10], stream)
  | 1, bytes, stream => do
    let (num, stream) ← stream.readBits 4
    if 10 ≤ num then .error "invalid numeric value above 9"
    else pure (bytes ++ [48 + num], stream)
  | 0, bytes, stream => pure (bytes, stream)

/-- `decodeNumeric`. -/
def decodeNumeric (stream : BitStream) (size : Nat) :
    Except String (List Nat × BitStream) := do
  let characterCountSize := [10, 12, 14].getD size 0
  let (length, stream) ← stream.readBits characterCountSize
  decodeNumericLoop length [] stream

/-- `AlphanumericCharacterCodes` as character codes. -/
def AlphanumericCharacterCodes : List Nat :=
  [48, 49, 50, 51, 52, 53, 54, 55, 56, 57,
   65, 66, 67, 68, 69, 70, 71, 72, 73, 74, 75, 76, 77, 78, 79, 80, 81, 82, 83, 84,
   85, 86, 87, 88, 89, 90,
   32, 36, 37, 42, 43, 45, 46, 47, 58]

/-- `decodeAlphanumeric`'s loop; reading an 11-bit value `v` with
`v / 45 ≥ 45` indexes past the table, which in JavaScript throws a
`TypeError` (modelled as an error). -/
def decodeAlphanumericLoop : Nat → List Nat → BitStream → Except String (List Nat × BitStream)
  | length + 2, bytes, stream => do
    let (v, stream) ← stream.readBits 11
    if 45 ≤ v / 45 then .error "illegal char"
    else
      decodeAlphanumericLoop length
        (bytes ++ [AlphanumericCharacterCodes.getD (v / 45) 0,
                   AlphanumericCharacterCodes.getD (v % 45) 0]) stream
  | 1, bytes, stream => do
    let (a, stream) ← stream.readBits 6
    if 45 ≤ a then .error "illegal char"
    else pure (bytes ++ [AlphanumericCharacterCodes.getD a 0], stream)
  | 0, bytes, stream => pure (bytes, stream)

/-- `decodeAlphanumeric`. -/
def decodeAlphanumeric (stream : BitStream) (size : Nat) :
    Except String (List Nat × BitStream) := do
  let characterCountSize := [9, 11, 13].getD size 0
  let (length, stream) ← stream.readBits characterCountSize
  decodeAlphanumericLoop length [] stream

/-- `decodeByte`'s loop. -/
def decodeByteLoop : Nat → List Nat → BitStream → Except String (List Nat × BitStream)
  | length + 1, bytes, stream => do
    let (b, stream) ← stream.readBits 8
    decodeByteLoop length (bytes ++ [b]) stream
  | 0, bytes, stream => pure (bytes, stream)

/-- `decodeByte`. -/
def decodeByte (stream : BitStream) (size : Nat) :
    Except String (List Nat × BitStream) := do
  let characterCountSize := [8, 16, 16].getD size 0
  let (length, stream) ← stream.readBits characterCountSize
  decodeByteLoop length [] stream

/-- `decodeKanji`'s loop: 13-bit groups mapped back to two Shift-JIS
bytes by `kanjiDecodeValue`. -/
def decodeKanjiLoop : Nat → List Nat → BitStream → Except String (List Nat × BitStream)
  | length + 1, bytes, stream => do
    let (k, stream) ← stream.readBits 13
    let c := kanjiDecodeValue k
    decodeKanjiLoop length (bytes ++ [c >>> 8, c &&& 0xff]) stream
  | 0, bytes, stream => pure (bytes, stream)

/-- `decodeKanji`. -/
def decodeKanji (stream : BitStream) (size : Nat) :
    Except String (List Nat × BitStream) := do
  let characterCountSize := [8, 10, 12].getD size 0
  let (length, stream) ← stream.readBits characterCountSize
  decodeKanjiLoop length [] stream

/-- The ECI branch of `decode$1`. -/
def decodeECI (stream : BitStream) : Except String (Int × BitStream) := do
  let (b1, stream) ← stream.readBits 1
  if b1 = 0 then
    let (v, stream) ← stream.readBits 7
    pure ((v : Int), stream)
  else do
    let (b2, stream) ← stream.readBits 1
    if b2 = 0 then
      let (v, stream) ← stream.readBits 14
      pure ((v : Int), stream)
    else do
      let (b3, stream) ← stream.readBits 1
      if b3 = 0 then
        let (v, stream) ← stream.readBits 21
        pure ((v : Int), stream)
      else
        pure ((-1 : Int), stream)

/-- The final `return` of `decode$1`: the gathered result when the
stream is empty or all remaining bits are zero, the `undefined` fall-off
otherwise. -/
def decodeTrailing (acc : DecResult) (stream : BitStream) : DecodeOutcome :=
  if stream.available = 0 then .ok acc
  else
    match stream.readBits stream.available with
    | .error msg => .threw msg acc
    | .ok (v, _) => if v = 0 then .ok acc else .trailingBits

/-- The `while (stream.available() >= 4)` loop of `decode$1`.  The fuel
is structural; every iteration consumes at least 4 bits, so
`available + 1` fuel is always enough.  An unrecognised mode indicator
matches no branch of the `if`/`else if` chain and the loop simply
continues. -/
def decodeSegsLoop : Nat → Nat → DecResult → BitStream → DecodeOutcome
  | 0, _, acc, stream => decodeTrailing acc stream
  | fuel + 1, size, acc, stream =>
    if 4 ≤ stream.available then
      match stream.readBits 4 with
      | .error msg => .threw msg acc
      | .ok (mode, stream) =>
        if mode = 0 then .ok acc
        else if mode = 7 then
          match decodeECI stream with
          | .error msg => .threw msg acc
          | .ok (assignmentNumber, stream) =>
            decodeSegsLoop fuel size
              ⟨acc.bytes, acc.chunks ++ [Chunk.eci assignmentNumber]⟩ stream
        else if mode = 1 then
          match decodeNumeric stream size with
          | .error msg => .threw msg acc
          | .ok (bytes, stream) =>
            decodeSegsLoop fuel size
              ⟨acc.bytes ++ bytes, acc.chunks ++ [Chunk.numeric bytes]⟩ stream
        else if mode = 2 then
          match decodeAlphanumeric stream size with
          | .error msg => .threw msg acc
          | .ok (bytes, stream) =>
            decodeSegsLoop fuel size
              ⟨acc.bytes ++ bytes, acc.chunks ++ [Chunk.alphanumeric bytes]⟩ stream
        else if mode = 3 then
          match stream.readBits 4 with
          | .error msg => .threw msg acc
          | .ok (m, stream) =>
            match stream.readBits 4 with
            | .error msg => .threw msg acc
            | .ok (n, stream) =>
              match stream.readBits 8 with
              | .error msg => .threw msg acc
              | .ok (parity, stream) =>
                decodeSegsLoop fuel size
                  ⟨acc.bytes, acc.chunks ++ [Chunk.structuredAppend (m + 1) (n + 1) parity]⟩
                  stream
        else if mode = 4 then
          match decodeByte stream size with
          | .error msg => .threw msg acc
          | .ok (bytes, stream) =>
            decodeSegsLoop fuel size
              ⟨acc.bytes ++ bytes, acc.chunks ++ [Chunk.byteChunk bytes]⟩ stream
        else if mode = 8 then
          match decodeKanji stream size with
          | .error msg => .threw msg acc
          | .ok (bytes, stream) =>
            decodeSegsLoop fuel size
              ⟨acc.bytes ++ bytes, acc.chunks ++ [Chunk.kanji bytes]⟩ stream
        else
          decodeSegsLoop fuel size acc stream
    else decodeTrailing acc stream

/-- `decode$1`. -/
def decodeSegs (data : List Nat) (version : Nat) : DecodeOutcome :=
  let stream : BitStream := ⟨data, 0, 0⟩
  let size := if version ≤ 9 then 0 else if version ≤ 26 then 1 else 2
  decodeSegsLoop (stream.available + 1) size ⟨[], []⟩ stream

/-- The tail of `decodeMatrix`: `try { return decode$1(...) } catch {
return null }`, composed with the caller treating the `undefined`
fall-off as falsy — only a returned result survives. -/
def decodeMatrixTail (data : List Nat) (version : Nat) : Option DecResult :=
  match decodeSegs data version with
  | .ok result => some result
  | .trailingBits => none
  | .threw _ _ => none

/-! ## Format information (bundle.js, `numBitsDiffering`,
`FORMAT_INFO_TABLE`, `readFormatInformation`) -/

/-- The `while (z) { bitCount++; z &= z - 1; }` loop of
`numBitsDiffering`; the fuel is structural and each iteration strictly
decreases `z` (as `z &&& (z - 1) ≤ z - 1`), so fuel `z` is always
enough. -/
def bitCountAux : Nat → Nat → Nat
  | 0, _ => 0
  | fuel + 1, z => if z = 0 then 0 else bitCountAux fuel (z &&& (z - 1)) + 1

def bitCountKernighan (z : Nat) : Nat := bitCountAux z z

def numBitsDiffering (x y : Nat) : Nat := bitCountKernighan (x ^^^ y)

/-- Spec-side binary population count (fuel-structured like
`bitCountAux`), used to relate the Kernighan loop to the bits of its
argument. -/
def binCountAux : Nat → Nat → Nat
  | 0, _ => 0
  | fuel + 1, z => if z = 0 then 0 else binCountAux fuel (z / 2) + z % 2

def binCount (z : Nat) : Nat := binCountAux z z

structure FormatInfo where
  errorCorrectionLevel : Nat
  dataMask : Nat
deriving DecidableEq, Repr

structure FormatEntry where
  bits : Nat
  info : FormatInfo
deriving DecidableEq, Repr

def FORMAT_INFO_TABLE : List FormatEntry := [
  ⟨0x5412, ⟨1, 0⟩⟩, ⟨0x5125, ⟨1, 1⟩⟩, ⟨0x5e7c, ⟨1, 2⟩⟩, ⟨0x5b4b, ⟨1, 3⟩⟩,
  ⟨0x45f9, ⟨1, 4⟩⟩, ⟨0x40ce, ⟨1, 5⟩⟩, ⟨0x4f97, ⟨1, 6⟩⟩, ⟨0x4aa0, ⟨1, 7⟩⟩,
  ⟨0x77c4, ⟨0, 0⟩⟩, ⟨0x72f3, ⟨0, 1⟩⟩, ⟨0x7daa, ⟨0, 2⟩⟩, ⟨0x789d, ⟨0, 3⟩⟩,
  ⟨0x662f, ⟨0, 4⟩⟩, ⟨0x6318, ⟨0, 5⟩⟩, ⟨0x6c41, ⟨0, 6⟩⟩, ⟨0x6976, ⟨0, 7⟩⟩,
  ⟨0x1689, ⟨3, 0⟩⟩, ⟨0x13be, ⟨3, 1⟩⟩, ⟨0x1ce7, ⟨3, 2⟩⟩, ⟨0x19d0, ⟨3, 3⟩⟩,
  ⟨0x0762, ⟨3, 4⟩⟩, ⟨0x0255, ⟨3, 5⟩⟩, ⟨0x0d0c, ⟨3, 6⟩⟩, ⟨0x083b, ⟨3, 7⟩⟩,
  ⟨0x355f, ⟨2, 0⟩⟩, ⟨0x3068, ⟨2, 1⟩⟩, ⟨0x3f31, ⟨2, 2⟩⟩, ⟨0x3a06, ⟨2, 3⟩⟩,
  ⟨0x24b4, ⟨2, 4⟩⟩, ⟨0x2183, ⟨2, 5⟩⟩, ⟨0x2eda, ⟨2, 6⟩⟩, ⟨0x2bed, ⟨2, 7⟩⟩]

/-- The table-matching loop of `readFormatInformation`, as a function
of the two 15-bit observations (top-left copy, and the copy split
between top-right and bottom-left).  An exact match on either word
returns immediately; otherwise the strictly best Hamming distance is
tracked (`Infinity` is modelled as the initial best of 10000), and the
best entry is returned only when its distance is at most 3. -/
def scanFormatTable (topLeft topRightBottomLeft : Nat) :
    List FormatEntry → Nat → Option FormatInfo → Option FormatInfo
  | [], bestDifference, bestFormatInfo =>
    if bestDifference ≤ 3 then bestFormatInfo else none
  | e :: rest, bestDifference, bestFormatInfo =>
    if e.bits = topLeft ∨ e.bits = topRightBottomLeft then some e.info
    else
      let (bestDifference, bestFormatInfo) :=
        if numBitsDiffering topLeft e.bits < bestDifference
        then (numBitsDiffering topLeft e.bits, some e.info)
        else (bestDifference, bestFormatInfo)
      let (bestDifference, bestFormatInfo) :=
        if topLeft ≠ topRightBottomLeft ∧
            numBitsDiffering topRightBottomLeft e.bits < bestDifference
        then (numBitsDiffering topRightBottomLeft e.bits, some e.info)
        else (bestDifference, bestFormatInfo)
      scanFormatTable topLeft topRightBottomLeft rest bestDifference bestFormatInfo

/-- `readFormatInformation`, given the two observed 15-bit words. -/
def readFormatInformation (topLeft topRightBottomLeft : Nat) : Option FormatInfo :=
  scanFormatTable topLeft topRightBottomLeft FORMAT_INFO_TABLE 10000 none

/-! ## Verification-side algebra for the Reed-Solomon code (C1)

`toPoly` embeds a byte as a polynomial over `GF(2)` (bit `i` becomes the
coefficient of `X^i`); `Cong` is congruence modulo the code's primitive
polynomial `0x11D`.  `gfMul`/`evalPoly` are the spec-side field
multiplication and Horner evaluation that the claim speaks about;
`blockStep`/`blockOf` name the per-block computation of
`createBlockData` for the proofs. -/

noncomputable def toPoly : Nat → MPoly
  | n =>
    if n = 0 then (0 : MPoly)
    else Polynomial.C ((n % 2 : Nat) : ZMod 2) + toPoly (n / 2) * Polynomial.X
termination_by n => n
decreasing_by omega

noncomputable def primPoly : MPoly := toPoly 285

def Cong (f g : MPoly) : Prop := primPoly ∣ (f - g)

noncomputable def XP (z : Int) : MPoly := Polynomial.X ^ (z % 255).toNat

/-- Spec-side GF(2^8) field multiplication: the table product
`gexp(glog a + glog b)` guarded by the zero cases (the claim's
"polynomial evaluation" is over this field structure). -/
def gfMul (a b : Nat) : Nat :=
  if a = 0 ∨ b = 0 then 0 else gexp ((glogT a : Int) + (glogT b : Int))

/-- Spec-side Horner evaluation of a coefficient list (highest degree
first) at a point of GF(2^8). -/
def evalPoly (cs : List Nat) (w : Nat) : Nat :=
  cs.foldl (fun acc c => gfMul acc w ^^^ c) 0

/-- Verification-side Horner evaluation over `GF(2)[X]`, with each byte
embedded through `toPoly`; used to state congruences modulo the
primitive polynomial. -/
noncomputable def EvP (cs : List Nat) (W : MPoly) : MPoly :=
  cs.foldl (fun acc c => acc * W + toPoly c) 0

/-- The ECC lengths (totalCount - dataCount) occurring in
`RS_BLOCK_TABLE`. -/
def ECC_LENGTHS : List Nat := [7, 10, 13, 15, 16, 17, 18, 20, 22, 24, 26, 28, 30]

/-- The loop body of `QRCode.createBytes`'s per-block pass, named for
the proofs below; `createBlockData` is definitionally a fold of this
step (see `createBlockData_eq`). -/
def blockStep (buffer : BitBuffer) (st : Nat × List (List Nat × List Nat))
    (rsBlock : RSBlock) : Nat × List (List Nat × List Nat) :=
  let offset := st.1
  let dcCount := rsBlock.getDataCount
  let ecCount := rsBlock.getTotalCount - dcCount
  let dcData := (List.range dcCount).map fun i => 0xff &&& buffer.buffer.getD (i + offset) 0
  let rsPoly := getErrorCorrectPolynomial ecCount
  let rawPoly := Polynomial.make dcData (rsPoly.getLength - 1)
  let modPoly := rawPoly.mod rsPoly
  let ecLength := rsPoly.getLength - 1
  let ecData := (List.range ecLength).map fun (i : Nat) =>
    let modIndex : Int := (i : Int) + modPoly.getLength - ecLength
    if 0 ≤ modIndex then modPoly.getAt modIndex.toNat else 0
  (offset + dcCount, st.2 ++ [(dcData, ecData)])

/-- One block of `createBlockData`, as a function of the running
offset. -/
def blockOf (buffer : BitBuffer) (offset : Nat) (rsBlock : RSBlock) :
    List Nat × List Nat :=
  let dcCount := rsBlock.getDataCount
  let ecCount := rsBlock.getTotalCount - dcCount
  let dcData := (List.range dcCount).map fun i => 0xff &&& buffer.buffer.getD (i + offset) 0
  let rsPoly := getErrorCorrectPolynomial ecCount
  let rawPoly := Polynomial.make dcData (rsPoly.getLength - 1)
  let modPoly := rawPoly.mod rsPoly
  let ecLength := rsPoly.getLength - 1
  let ecData := (List.range ecLength).map fun (i : Nat) =>
    let modIndex : Int := (i : Int) + modPoly.getLength - ecLength
    if 0 ≤ modIndex then modPoly.getAt modIndex.toNat else 0
  (dcData, ecData)


/-! ## Kernel-evaluation-friendly forms of the GF(2^8) machinery

`EXP_TABLE`/`LOG_TABLE` are built by folds, which is faithful to the
source but expensive to re-evaluate inside proofs by computation.  The
functions below are the same functions over the literal values of the
two tables; each is proved equal to its source-translated counterpart
(`exp_table_eq` through `createBlockData_eq_fast` below), and the
computational facts are checked on these forms. -/

def EXP_LIST : List Nat :=
  [1, 2, 4, 8, 16, 32, 64, 128, 29, 58, 116, 232, 205, 135, 19, 38, 76, 152,
   45, 90, 180, 117, 234, 201, 143, 3, 6, 12, 24, 48, 96, 192, 157, 39, 78,
   156, 37, 74, 148, 53, 106, 212, 181, 119, 238, 193, 159, 35, 70, 140, 5,
   10, 20, 40, 80, 160, 93, 186, 105, 210, 185, 111, 222, 161, 95, 190, 97,
   194, 153, 47, 94, 188, 101, 202, 137, 15, 30, 60, 120, 240, 253, 231, 211,
   187, 107, 214, 177, 127, 254, 225, 223, 163, 91, 182, 113, 226, 217, 175,
   67, 134, 17, 34, 68, 136, 13, 26, 52, 104, 208, 189, 103, 206, 129, 31, 62,
   124, 248, 237, 199, 147, 59, 118, 236, 197, 151, 51, 102, 204, 133, 23, 46,
   92, 184, 109, 218, 169, 79, 158, 33, 66, 132, 21, 42, 84, 168, 77, 154, 41,
   82, 164, 85, 170, 73, 146, 57, 114, 228, 213, 183, 115, 230, 209, 191, 99,
   198, 145, 63, 126, 252, 229, 215, 179, 123, 246, 241, 255, 227, 219, 171,
   75, 150, 49, 98, 196, 149, 55, 110, 220, 165, 87, 174, 65, 130, 25, 50,
   100, 200, 141, 7, 14, 28, 56, 112, 224, 221, 167, 83, 166, 81, 162, 89,
   178, 121, 242, 249, 239, 195, 155, 43, 86, 172, 69, 138, 9, 18, 36, 72,
   144, 61, 122, 244, 245, 247, 243, 251, 235, 203, 139, 11, 22, 44, 88, 176,
   125, 250, 233, 207, 131, 27, 54, 108, 216, 173, 71, 142, 1]

def LOG_LIST : List Nat :=
  [0, 0, 1, 25, 2, 50, 26, 198, 3, 223, 51, 238, 27, 104, 199, 75, 4, 100,
   224, 14, 52, 141, 239, 129, 28, 193, 105, 248, 200, 8, 76, 113, 5, 138,
   101, 47, 225, 36, 15, 33, 53, 147, 142, 218, 240, 18, 130, 69, 29, 181,
   194, 125, 106, 39, 249, 185, 201, 154, 9, 120, 77, 228, 114, 166, 6, 191,
   139, 98, 102, 221, 48, 253, 226, 152, 37, 179, 16, 145, 34, 136, 54, 208,
   148, 206, 143, 150, 219, 189, 241, 210, 19, 92, 131, 56, 70, 64, 30, 66,
   182, 163, 195, 72, 126, 110, 107, 58, 40, 84, 250, 133, 186, 61, 202, 94,
   155, 159, 10, 21, 121, 43, 78, 212, 229, 172, 115, 243, 167, 87, 7, 112,
   192, 247, 140, 128, 99, 13, 103, 74, 222, 237, 49, 197, 254, 24, 227, 165,
   153, 119, 38, 184, 180, 124, 17, 68, 146, 217, 35, 32, 137, 46, 55, 63,
   209, 91, 149, 188, 207, 205, 144, 135, 151, 178, 220, 252, 190, 97, 242,
   86, 211, 171, 20, 42, 93, 158, 132, 60, 57, 83, 71, 109, 65, 162, 31, 45,
   67, 216, 183, 123, 164, 118, 196, 23, 73, 236, 127, 12, 111, 246, 108, 161,
   59, 82, 41, 157, 85, 170, 251, 96, 134, 177, 187, 204, 62, 90, 203, 89, 95,
   176, 156, 169, 160, 81, 11, 245, 22, 235, 122, 117, 44, 215, 79, 174, 213,
   233, 230, 231, 173, 232, 116, 214, 244, 234, 168, 80, 88, 175]

def glogF (n : Nat) : Nat := LOG_LIST.getD n 0

def gexpF (n : Int) : Nat := EXP_LIST.getD (gexpDownNorm (gexpUpNorm n)).toNat 0

def gfMulF (a b : Nat) : Nat :=
  if a = 0 ∨ b = 0 then 0 else gexpF ((glogF a : Int) + (glogF b : Int))

def evalPolyF (cs : List Nat) (w : Nat) : Nat :=
  cs.foldl (fun acc c => gfMulF acc w ^^^ c) 0

def multiplyF (p e : Polynomial) : Polynomial :=
  let num := (List.range p.getLength).foldl (fun acc i =>
      (List.range e.getLength).foldl (fun acc2 j =>
        acc2.set (i + j) (acc2.getD (i + j) 0 ^^^
          gexpF ((glogF (p.getAt i) : Int) + glogF (e.getAt j)))) acc)
    (List.replicate (p.getLength + e.getLength - 1) 0)
  Polynomial.make num 0

def getErrorCorrectPolynomialF (errorCorrectLength : Nat) : Polynomial :=
  (List.range errorCorrectLength).foldl
    (fun e i => multiplyF e (Polynomial.make [1, gexpF (i : Int)] 0))
    (Polynomial.make [1] 0)

def modStepF (p e : Polynomial) : Polynomial :=
  let ratio : Int := (glogF (p.getAt 0) : Int) - glogF (e.getAt 0)
  Polynomial.make ((List.range p.getLength).map fun i =>
    if i < e.getLength then p.getAt i ^^^ gexpF ((glogF (e.getAt i) : Int) + ratio)
    else p.getAt i) 0

def modAuxF : Nat → Polynomial → Polynomial → Polynomial
  | fuel, p, e =>
    if p.getLength < e.getLength then p
    else
      match fuel with
      | 0 => p
      | fuel + 1 => modAuxF fuel (modStepF p e) e

def modF (p e : Polynomial) : Polynomial := modAuxF p.getLength p e

def createBlockDataF (buffer : BitBuffer) (rsBlocks : List RSBlock) :
    List (List Nat × List Nat) :=
  (rsBlocks.foldl (fun (st : Nat × List (List Nat × List Nat)) rsBlock =>
    let offset := st.1
    let dcCount := rsBlock.getDataCount
    let ecCount := rsBlock.getTotalCount - dcCount
    let dcData := (List.range dcCount).map fun i => 0xff &&& buffer.buffer.getD (i + offset) 0
    let rsPoly := getErrorCorrectPolynomialF ecCount
    let rawPoly := Polynomial.make dcData (rsPoly.getLength - 1)
    let modPoly := modF rawPoly rsPoly
    let ecLength := rsPoly.getLength - 1
    let ecData := (List.range ecLength).map fun (i : Nat) =>
      let modIndex : Int := (i : Int) + modPoly.getLength - ecLength
      if 0 ≤ modIndex then modPoly.getAt modIndex.toNat else 0
    (offset + dcCount, st.2 ++ [(dcData, ecData)])) (0, [])).2

/-! # Theorems -/

/-! ## BitBuffer lemmas -/

theorem getD_set_self (l : List Nat) (n v : Nat) (h : n < l.length) :
    (l.set n v).getD n 0 = v := by
  simp [List.getD_eq_getElem?_getD, List.getElem?_set_self h]

theorem getD_set_ne (l : List Nat) (m n v : Nat) (h : m ≠ n) :
    (l.set m v).getD n 0 = l.getD n 0 := by
  simp [List.getD_eq_getElem?_getD, List.getElem?_set_ne h]

theorem getD_append_left (l1 l2 : List Nat) (n : Nat) (h : n < l1.length) :
    (l1 ++ l2).getD n 0 = l1.getD n 0 := by
  simp [List.getD_eq_getElem?_getD, List.getElem?_append_left h]

theorem getD_of_ge (l : List Nat) (n : Nat) (h : l.length ≤ n) : l.getD n 0 = 0 := by
  simp [List.getD_eq_getElem?_getD, List.getElem?_eq_none h]

theorem BitBuffer.getBit_eq_testBit (b : BitBuffer) (i : Nat) :
    b.getBit i = (b.buffer.getD (i / 8) 0).testBit (7 - i % 8) := by
  unfold BitBuffer.getBit Nat.testBit
  rcases Nat.mod_two_eq_zero_or_one (b.buffer.getD (i / 8) 0 >>> (7 - i % 8)) with h | h <;>
    simp [Nat.and_one_is_mod, Nat.one_and_eq_mod_two, h]

theorem BitBuffer.getBit_of_byte_ge (b : BitBuffer) (i : Nat)
    (h : b.buffer.length ≤ i / 8) : b.getBit i = false := by
  rw [BitBuffer.getBit_eq_testBit, getD_of_ge _ _ h]
  simp

theorem shift128 : ∀ k, k < 8 → 128 >>> k = 2 ^ (7 - k) := by decide

theorem BitBuffer.getD_lt_of_WF (b : BitBuffer) (hWF : b.WF) (n : Nat) :
    b.buffer.getD n 0 < 256 := by
  rcases Nat.lt_or_ge n b.buffer.length with h | h
  · exact hWF.2.1 n h
  · rw [getD_of_ge _ _ h]
    omega

theorem BitBuffer.getBit_ge (b : BitBuffer) (hWF : b.WF) (i : Nat) (h : b.length ≤ i) :
    b.getBit i = false := by
  rcases Nat.lt_or_ge i (8 * b.buffer.length) with h8 | h8
  · exact hWF.2.2 i h8 h
  · exact b.getBit_of_byte_ge i (by omega)

/-- Uniform description of the byte array after `putBit`: only the byte
at `length / 8` changes, by OR-ing in `0x80 >>> (length % 8)` when the
bit is set. -/
theorem BitBuffer.putBit_buffer_getD (b : BitBuffer) (x : Bool) (hWF : b.WF) (n : Nat) :
    (b.putBit x).buffer.getD n 0 =
      if n = b.length / 8 then
        b.buffer.getD n 0 ||| (if x then 128 >>> (b.length % 8) else 0)
      else b.buffer.getD n 0 := by
  obtain ⟨hlen, hbytes, hzero⟩ := hWF
  unfold BitBuffer.putBit
  by_cases hfull : b.length = 8 * b.buffer.length
  · have hidx : b.length / 8 = b.buffer.length := by omega
    have hgd0 : (b.buffer ++ [0]).getD (b.length / 8) 0 = 0 := by
      rw [hidx]
      simp [List.getD_eq_getElem?_getD, List.getElem?_concat_length]
    have hold0 : b.buffer.getD (b.length / 8) 0 = 0 := getD_of_ge _ _ (by omega)
    cases x with
    | false =>
      simp only [if_pos hfull, Bool.false_eq_true, if_false]
      by_cases hn : n = b.length / 8
      · subst hn
        rw [hgd0, if_pos rfl, hold0]
        simp
      · rw [if_neg hn]
        rcases Nat.lt_or_ge n b.buffer.length with h | h
        · exact getD_append_left _ _ _ h
        · have h2 : n ≥ (b.buffer ++ [0]).length := by
            simp
            omega
          rw [getD_of_ge _ _ h2, getD_of_ge _ _ h]
    | true =>
      simp only [if_pos hfull, if_true]
      by_cases hn : n = b.length / 8
      · subst hn
        rw [if_pos rfl, hgd0, getD_set_self _ _ _ (by simp; omega), hold0]
      · rw [if_neg hn, getD_set_ne _ _ _ _ (fun h => hn h.symm)]
        rcases Nat.lt_or_ge n b.buffer.length with h | h
        · exact getD_append_left _ _ _ h
        · have h2 : n ≥ (b.buffer ++ [0]).length := by
            simp
            omega
          rw [getD_of_ge _ _ h2, getD_of_ge _ _ h]
  · have hidx : b.length / 8 < b.buffer.length := by omega
    cases x with
    | false =>
      simp only [if_neg hfull, Bool.false_eq_true, if_false]
      split <;> simp
    | true =>
      simp only [if_neg hfull, if_true]
      by_cases hn : n = b.length / 8
      · subst hn
        rw [if_pos rfl, getD_set_self _ _ _ hidx]
      · rw [if_neg hn, getD_set_ne _ _ _ _ (fun h => hn h.symm)]

theorem BitBuffer.putBit_buffer_length (b : BitBuffer) (x : Bool) (hWF : b.WF) :
    (b.putBit x).buffer.length = (b.length + 8) / 8 := by
  obtain ⟨hlen, hbytes, hzero⟩ := hWF
  unfold BitBuffer.putBit
  by_cases hfull : b.length = 8 * b.buffer.length
  · cases x <;> simp [hfull]
  · cases x <;> simp [hfull] <;> omega

theorem BitBuffer.getBit_putBit (b : BitBuffer) (x : Bool) (hWF : b.WF) (i : Nat) :
    (b.putBit x).getBit i = if i = b.length then x else b.getBit i := by
  have hgd := b.putBit_buffer_getD x hWF
  rw [BitBuffer.getBit_eq_testBit]
  have hlen' : (b.putBit x).length = b.length + 1 := rfl
  by_cases hbyte : i / 8 = b.length / 8
  · rw [hgd (i / 8), if_pos hbyte, Nat.testBit_or]
    by_cases hi : i = b.length
    · subst hi
      have hz : b.getBit b.length = false := b.getBit_ge hWF b.length le_rfl
      rw [BitBuffer.getBit_eq_testBit] at hz
      rw [hz, if_pos rfl]
      cases x with
      | false => simp
      | true =>
        rw [if_pos rfl, shift128 _ (by omega), Nat.testBit_two_pow]
        simp
    · rw [if_neg hi]
      have hmod : i % 8 ≠ b.length % 8 := by omega
      have hne : (7 - b.length % 8) ≠ (7 - i % 8) := by omega
      cases x with
      | false =>
        simp [BitBuffer.getBit_eq_testBit]
      | true =>
        rw [if_pos rfl, shift128 _ (by omega), Nat.testBit_two_pow]
        simp [BitBuffer.getBit_eq_testBit, decide_eq_false hne]
  · rw [hgd (i / 8), if_neg hbyte]
    have hi : i ≠ b.length := fun h => hbyte (by rw [h])
    rw [if_neg hi, BitBuffer.getBit_eq_testBit]

theorem BitBuffer.WF_putBit (b : BitBuffer) (x : Bool) (hWF : b.WF) :
    (b.putBit x).WF := by
  have hget := BitBuffer.getBit_putBit b x hWF
  have hgd := b.putBit_buffer_getD x hWF
  have hbl := b.putBit_buffer_length x hWF
  have hlen' : (b.putBit x).length = b.length + 1 := rfl
  refine ⟨by rw [hbl, hlen'], ?_, ?_⟩
  · intro n _
    rw [hgd n]
    have hold := b.getD_lt_of_WF hWF n
    split
    · have hm : (if x then 128 >>> (b.length % 8) else 0) < 256 := by
        cases x with
        | false => simp
        | true =>
          simp only [if_true]
          rw [Nat.shiftRight_eq_div_pow]
          have := Nat.div_le_self 128 (2 ^ (b.length % 8))
          omega
      have h256 : (256 : Nat) = 2 ^ 8 := by norm_num
      rw [h256]
      exact Nat.or_lt_two_pow (by omega) (by omega)
    · exact hold
  · intro i hi1 hi2
    rw [hget i, if_neg (by omega)]
    exact b.getBit_ge hWF i (by omega)

theorem beq_one_eq_testBit_zero (num : Nat) : ((num &&& 1) == 1) = num.testBit 0 := by
  rcases Nat.mod_two_eq_zero_or_one num with h | h <;>
    simp [Nat.and_one_is_mod, h, Nat.testBit_zero]

theorem BitBuffer.length_foldl_putBit (l : List Nat) (g : Nat → Bool) (b : BitBuffer) :
    (l.foldl (fun acc i => acc.putBit (g i)) b).length = b.length + l.length := by
  induction l generalizing b with
  | nil => rfl
  | cons a l ih =>
    simp only [List.foldl_cons, ih, List.length_cons]
    have h1 : (b.putBit (g a)).length = b.length + 1 := rfl
    omega

theorem BitBuffer.length_put (b : BitBuffer) (num n : Nat) :
    (b.put num n).length = b.length + n := by
  unfold BitBuffer.put
  rw [BitBuffer.length_foldl_putBit, List.length_range]

theorem BitBuffer.WF_foldl_putBit (l : List Nat) (g : Nat → Bool) (b : BitBuffer)
    (hWF : b.WF) : (l.foldl (fun acc i => acc.putBit (g i)) b).WF := by
  induction l generalizing b with
  | nil => exact hWF
  | cons a l ih =>
    simp only [List.foldl_cons]
    exact ih _ (b.WF_putBit _ hWF)

theorem BitBuffer.WF_put (b : BitBuffer) (num n : Nat) (hWF : b.WF) : (b.put num n).WF :=
  BitBuffer.WF_foldl_putBit _ _ _ hWF

theorem BitBuffer.getBit_put (b : BitBuffer) (num n : Nat) (hWF : b.WF) (i : Nat) :
    (b.put num n).getBit i =
      if i < b.length then b.getBit i
      else if i < b.length + n then num.testBit (n - 1 - (i - b.length))
      else false := by
  induction n generalizing num with
  | zero =>
    simp only [BitBuffer.put, List.range_zero, List.foldl_nil, Nat.add_zero]
    split
    · rfl
    · exact b.getBit_ge hWF i (by omega)
  | succ n ih =>
    have hsplit : b.put num (n + 1) = (b.put (num >>> 1) n).putBit (((num &&& 1)) == 1) := by
      unfold BitBuffer.put
      rw [List.range_succ, List.foldl_append, List.foldl_cons, List.foldl_nil]
      have hshift : n + 1 - n - 1 = 0 := by omega
      rw [hshift, Nat.shiftRight_zero]
      have hext : (List.range n).foldl
          (fun acc i => acc.putBit (((num >>> (n + 1 - i - 1)) &&& 1) == 1)) b =
          (List.range n).foldl
          (fun acc i => acc.putBit ((((num >>> 1) >>> (n - i - 1)) &&& 1) == 1)) b := by
        apply List.foldl_ext
        intro acc j hj
        rw [List.mem_range] at hj
        have : (num >>> 1) >>> (n - j - 1) = num >>> (n + 1 - j - 1) := by
          rw [← Nat.shiftRight_add]
          congr 1
          omega
        rw [this]
      rw [hext]
    rw [hsplit, BitBuffer.getBit_putBit _ _ (b.WF_put _ _ hWF), BitBuffer.length_put,
      beq_one_eq_testBit_zero, ih (num >>> 1)]
    by_cases h1 : i = b.length + n
    · have hnlt : ¬ i < b.length := by omega
      have hlt : i < b.length + (n + 1) := by omega
      rw [if_pos h1, if_neg hnlt, if_pos hlt]
      have h0 : n + 1 - 1 - (i - b.length) = 0 := by omega
      rw [h0]
    · rw [if_neg h1]
      by_cases h2 : i < b.length
      · rw [if_pos h2, if_pos h2]
      · rw [if_neg h2, if_neg h2]
        by_cases h3 : i < b.length + n
        · have hlt : i < b.length + (n + 1) := by omega
          rw [if_pos h3, if_pos hlt, Nat.testBit_shiftRight]
          congr 1
          omega
        · have hge : ¬ i < b.length + (n + 1) := by omega
          rw [if_neg h3, if_neg hge]

theorem BitBuffer.bits_length (b : BitBuffer) : b.bits.length = b.length := by
  simp [BitBuffer.bits]

theorem BitBuffer.bits_put (b : BitBuffer) (num n : Nat) (hWF : b.WF) :
    (b.put num n).bits = b.bits ++ (List.range n).map (fun i => num.testBit (n - 1 - i)) := by
  unfold BitBuffer.bits
  rw [BitBuffer.length_put, List.range_add, List.map_append, List.map_map]
  congr 1
  · apply List.map_congr_left
    intro i hi
    rw [List.mem_range] at hi
    rw [BitBuffer.getBit_put _ _ _ hWF, if_pos hi]
  · apply List.map_congr_left
    intro i hi
    rw [List.mem_range] at hi
    simp only [Function.comp_apply]
    rw [BitBuffer.getBit_put _ _ _ hWF, if_neg (by omega), if_pos (by omega)]
    congr 1
    omega

theorem BitBuffer.WF_empty : BitBuffer.empty.WF := by
  refine ⟨rfl, ?_, ?_⟩ <;> intro n h <;> simp [BitBuffer.empty] at h

/-! ## padToByte and fillPad lemmas, and the padding layout (C3) -/

theorem BitBuffer.bits_putBit (b : BitBuffer) (x : Bool) (hWF : b.WF) :
    (b.putBit x).bits = b.bits ++ [x] := by
  unfold BitBuffer.bits
  have hl : (b.putBit x).length = b.length + 1 := rfl
  rw [hl, List.range_succ, List.map_append]
  congr 1
  · apply List.map_congr_left
    intro i hi
    rw [List.mem_range] at hi
    rw [b.getBit_putBit x hWF, if_neg (by omega)]
  · simp [b.getBit_putBit x hWF]

theorem padToByte_aux : ∀ n (b : BitBuffer), b.WF → (8 - b.length % 8) % 8 = n →
    (padToByte b).WF ∧ (padToByte b).length = b.length + n ∧
    (padToByte b).bits = b.bits ++ List.replicate n false := by
  intro n
  induction n with
  | zero =>
    intro b hWF h0
    have hz : b.length % 8 = 0 := by omega
    rw [padToByte, if_pos hz]
    simp [hWF]
  | succ n ih =>
    intro b hWF hs
    have hne : ¬ b.length % 8 = 0 := by omega
    rw [padToByte, if_neg hne]
    have hWF1 : (b.putBit false).WF := b.WF_putBit false hWF
    have hlb : (b.putBit false).length = b.length + 1 := rfl
    have hm : (8 - (b.putBit false).length % 8) % 8 = n := by
      rw [hlb]
      omega
    obtain ⟨h1, h2, h3⟩ := ih _ hWF1 hm
    refine ⟨h1, ?_, ?_⟩
    · rw [h2, hlb]
      omega
    · rw [h3, b.bits_putBit false hWF, List.append_assoc]
      congr 1

theorem padToByte_spec (b : BitBuffer) (hWF : b.WF) :
    (padToByte b).WF ∧ (padToByte b).length = b.length + (8 - b.length % 8) % 8 ∧
    (padToByte b).bits = b.bits ++ List.replicate ((8 - b.length % 8) % 8) false :=
  padToByte_aux _ b hWF rfl

theorem byteBits_eq (num : Nat) :
    (List.range 8).map (fun i => num.testBit (8 - 1 - i)) = byteBits num := by
  apply List.map_congr_left
  intro i _
  rfl

theorem padPatternBits_step (k : Nat) :
    padPatternBits (k + 2) = byteBits PAD0 ++ byteBits PAD1 ++ padPatternBits k := by
  unfold padPatternBits
  have h2 : k + 2 = 2 + k := by omega
  rw [h2, List.range_add, List.flatMap_append, List.flatMap_map]
  have hshift : ∀ j : Nat,
      byteBits (if (2 + j) % 2 = 0 then PAD0 else PAD1) =
      byteBits (if j % 2 = 0 then PAD0 else PAD1) := by
    intro j
    congr 1
    have : (2 + j) % 2 = j % 2 := by omega
    rw [this]
  have hflat : (List.range k).flatMap (fun j => byteBits (if (2 + j) % 2 = 0 then PAD0 else PAD1)) =
      (List.range k).flatMap (fun j => byteBits (if j % 2 = 0 then PAD0 else PAD1)) := by
    apply List.flatMap_congr ?_
    intro j _
    exact hshift j
  rw [hflat]
  rfl

theorem fillPad_spec : ∀ k (b : BitBuffer) (maxDataCount : Nat), b.WF →
    b.length % 8 = 0 → maxDataCount % 8 = 0 → b.length ≤ maxDataCount →
    (maxDataCount - b.length) / 8 = k →
    (fillPad b maxDataCount).WF ∧ (fillPad b maxDataCount).length = maxDataCount ∧
    (fillPad b maxDataCount).bits = b.bits ++ padPatternBits k := by
  intro k
  induction k using Nat.strong_induction_on with
  | _ k ih =>
    intro b maxDataCount hWF hb8 hm8 hle hk
    match k, hk with
    | 0, hk =>
      have heq : maxDataCount ≤ b.length := by omega
      rw [fillPad, if_pos heq]
      refine ⟨hWF, by omega, ?_⟩
      simp [padPatternBits]
    | 1, hk =>
      have hlt : ¬ maxDataCount ≤ b.length := by omega
      have heq : maxDataCount = b.length + 8 := by omega
      rw [fillPad, if_neg hlt]
      have hl1 : (b.put PAD0 8).length = b.length + 8 := b.length_put PAD0 8
      have hstop : maxDataCount ≤ (b.put PAD0 8).length := by omega
      rw [if_pos hstop]
      refine ⟨b.WF_put PAD0 8 hWF, by omega, ?_⟩
      rw [b.bits_put PAD0 8 hWF]
      congr 1
    | (k + 2), hk =>
      have hge : maxDataCount - b.length ≥ 16 := by omega
      have hlt : ¬ maxDataCount ≤ b.length := by omega
      rw [fillPad, if_neg hlt]
      have hl1 : (b.put PAD0 8).length = b.length + 8 := b.length_put PAD0 8
      have hlt2 : ¬ maxDataCount ≤ (b.put PAD0 8).length := by omega
      rw [if_neg hlt2]
      have hWF2 : ((b.put PAD0 8).put PAD1 8).WF :=
        (b.put PAD0 8).WF_put PAD1 8 (b.WF_put PAD0 8 hWF)
      have hl2 : ((b.put PAD0 8).put PAD1 8).length = b.length + 16 := by
        rw [(b.put PAD0 8).length_put PAD1 8, hl1]
      obtain ⟨h1, h2, h3⟩ := ih k (by omega) ((b.put PAD0 8).put PAD1 8) maxDataCount hWF2
        (by omega) hm8 (by omega) (by omega)
      refine ⟨h1, h2, ?_⟩
      rw [h3, (b.put PAD0 8).bits_put PAD1 8 (b.WF_put PAD0 8 hWF), b.bits_put PAD0 8 hWF]
      rw [padPatternBits_step, byteBits_eq, byteBits_eq]
      simp [List.append_assoc]

theorem padFill_spec (b1 : BitBuffer) (M : Nat) (hWF1 : b1.WF) (hm8 : M % 8 = 0)
    (hle : b1.length ≤ M) :
    (fillPad (padToByte b1) M).length = M ∧
    (fillPad (padToByte b1) M).bits =
      b1.bits ++ List.replicate ((8 - b1.length % 8) % 8) false ++
        padPatternBits ((M - (b1.length + (8 - b1.length % 8) % 8)) / 8) := by
  obtain ⟨hWF2, hlen2, hbits2⟩ := padToByte_spec b1 hWF1
  have hle2 : (padToByte b1).length ≤ M := by
    rw [hlen2]
    omega
  have hmod2 : (padToByte b1).length % 8 = 0 := by
    rw [hlen2]
    omega
  obtain ⟨hWF3, hlen3, hbits3⟩ := fillPad_spec _ _ M hWF2 hmod2 hm8 hle2 rfl
  refine ⟨hlen3, ?_⟩
  rw [hbits3, hbits2, hlen2]

/-- C3: for every well-formed data buffer that fits the capacity
`maxDataCountOf rsBlocks = 8 · Σ dataCount`, the data-preparation step
appends a 4-bit zero terminator when at least 4 bits remain, zero bits
up to the next byte boundary, and then the bytes `0xEC` and `0x11`
alternately (starting with `0xEC`) until the bit length equals the
capacity exactly. -/
theorem createData_padding (buffer : BitBuffer) (rsBlocks : List RSBlock)
    (hWF : buffer.WF) (hfit : buffer.length ≤ maxDataCountOf rsBlocks) :
    ∃ res, createDataBuffer buffer (maxDataCountOf rsBlocks) = .ok res ∧
      res.length = maxDataCountOf rsBlocks ∧
      res.bits = buffer.bits
        ++ List.replicate (terminatorLength buffer.length (maxDataCountOf rsBlocks) +
             alignLength buffer.length (maxDataCountOf rsBlocks)) false
        ++ padPatternBits (padByteCount buffer.length (maxDataCountOf rsBlocks)) := by
  have hm8 : maxDataCountOf rsBlocks % 8 = 0 := by
    unfold maxDataCountOf
    omega
  have hnlt : ¬ maxDataCountOf rsBlocks < buffer.getLengthInBits := by
    unfold BitBuffer.getLengthInBits
    omega
  unfold createDataBuffer
  rw [if_neg hnlt]
  by_cases hc : buffer.getLengthInBits + 4 ≤ maxDataCountOf rsBlocks
  · rw [if_pos hc]
    have hc' : buffer.length + 4 ≤ maxDataCountOf rsBlocks := hc
    have hWF1 : (buffer.put 0 4).WF := buffer.WF_put 0 4 hWF
    have hlen1 : (buffer.put 0 4).length = buffer.length + 4 := buffer.length_put 0 4
    have hbits1 : (buffer.put 0 4).bits = buffer.bits ++ List.replicate 4 false := by
      rw [buffer.bits_put 0 4 hWF]
      congr 1
    obtain ⟨hlen3, hbits3⟩ := padFill_spec (buffer.put 0 4) (maxDataCountOf rsBlocks)
      hWF1 hm8 (by omega)
    refine ⟨_, rfl, hlen3, ?_⟩
    rw [hbits3, hbits1, hlen1]
    have ht : terminatorLength buffer.length (maxDataCountOf rsBlocks) = 4 := by
      unfold terminatorLength
      rw [if_pos hc']
    have ha : alignLength buffer.length (maxDataCountOf rsBlocks) =
        (8 - (buffer.length + 4) % 8) % 8 := by
      unfold alignLength
      rw [ht]
    have hp : padByteCount buffer.length (maxDataCountOf rsBlocks) =
        (maxDataCountOf rsBlocks - (buffer.length + 4 + (8 - (buffer.length + 4) % 8) % 8)) / 8 := by
      unfold padByteCount
      rw [ht, ha]
    rw [ht, ha, hp, List.replicate_add]
    try simp [List.append_assoc]
  · rw [if_neg hc]
    have hc' : ¬ buffer.length + 4 ≤ maxDataCountOf rsBlocks := hc
    obtain ⟨hlen3, hbits3⟩ := padFill_spec buffer (maxDataCountOf rsBlocks) hWF hm8 hfit
    refine ⟨_, rfl, hlen3, ?_⟩
    rw [hbits3]
    have ht : terminatorLength buffer.length (maxDataCountOf rsBlocks) = 0 := by
      unfold terminatorLength
      rw [if_neg hc']
    have ha : alignLength buffer.length (maxDataCountOf rsBlocks) =
        (8 - buffer.length % 8) % 8 := by
      unfold alignLength
      rw [ht]
      simp
    have hp : padByteCount buffer.length (maxDataCountOf rsBlocks) =
        (maxDataCountOf rsBlocks - (buffer.length + (8 - buffer.length % 8) % 8)) / 8 := by
      unfold padByteCount
      rw [ht, ha]
      simp
    rw [ht, ha, hp]
    norm_num

/-- Witness for `createData_padding`: the prepared buffer of the
alphanumeric payload "HELLO WORLD" at version 1, level Q (74 bits,
capacity 104 bits). -/
theorem createData_padding_witness :
    ∃ res, createDataBuffer ⟨74, [32, 91, 11, 120, 209, 114, 220, 77, 67, 64]⟩
        (maxDataCountOf [⟨26, 13⟩]) = .ok res ∧
      res.length = maxDataCountOf [⟨26, 13⟩] ∧
      res.bits = BitBuffer.bits ⟨74, [32, 91, 11, 120, 209, 114, 220, 77, 67, 64]⟩
        ++ List.replicate (terminatorLength 74 (maxDataCountOf [⟨26, 13⟩]) +
             alignLength 74 (maxDataCountOf [⟨26, 13⟩])) false
        ++ padPatternBits (padByteCount 74 (maxDataCountOf [⟨26, 13⟩])) :=
  createData_padding ⟨74, [32, 91, 11, 120, 209, 114, 220, 77, 67, 64]⟩ [⟨26, 13⟩]
    (by decide) (by decide)

/-! ## Version fit and auto-version selection (C2) -/

theorem except_bind_ok {α β : Type} (a : α) (f : α → Except String β) :
    (Except.ok a >>= f) = f a := rfl

theorem except_bind_error {α β : Type} (e : String) (f : α → Except String β) :
    ((Except.error e : Except String α) >>= f) = .error e := rfl

theorem except_pure_bind {α β : Type} (a : α) (f : α → Except String β) :
    ((pure a : Except String α) >>= f) = f a := rfl

set_option maxRecDepth 40000 in
/-- C2 counterexample: the payload of 36 one-byte Byte segments at
level H fits version 9 (720 ≤ 800 data bits) and the auto-version loop
selects 9, yet explicit encoding at version 10 ≥ 9 fails with a data
overflow (1008 > 976 data bits), because the Byte-mode character count
indicator grows from 8 to 16 bits at version 10 and the payload has
many segments.  This refutes "encoding succeeds for every v ≥ v*". -/
theorem makeEncode_monotone_counterexample :
    (makeEncode 9 false 2 (List.replicate 36 (QRData.byte [65]))).isOk = true ∧
    makeEncode 10 false 2 (List.replicate 36 (QRData.byte [65])) =
      .error "data overflow: 1008 > 976" ∧
    (makeEncode 0 true 2 (List.replicate 36 (QRData.byte [65]))).map Prod.fst =
      .ok 9 := by
  refine ⟨?_, ?_, ?_⟩ <;> rfl

theorem autoVersionLoopAux_least (errorCorrectLevel : Nat) (dataList : List QRData)
    (vstar : Nat) (h40 : vstar ≤ 40)
    (hfit : fitsVersion errorCorrectLevel dataList vstar = true)
    (hleast : ∀ v < vstar, 1 ≤ v → fitsVersion errorCorrectLevel dataList v = false)
    (hok : ∀ v < 41, 1 ≤ v → (prepareData v errorCorrectLevel dataList).isOk = true) :
    ∀ fuel v, fuel = 40 - v → 1 ≤ v → v ≤ vstar →
      ∃ r, prepareData vstar errorCorrectLevel dataList = .ok r ∧
        autoVersionLoopAux errorCorrectLevel dataList fuel v = .ok (vstar, r) := by
  intro fuel
  induction fuel with
  | zero =>
    intro v hfuel hv1 hvs
    have hv : v = vstar := by omega
    subst hv
    match hr : prepareData v errorCorrectLevel dataList with
    | .error e =>
      have := hok v (by omega) (by omega)
      rw [hr] at this
      simp [Except.isOk, Except.toBool] at this
    | .ok r =>
      refine ⟨r, rfl, ?_⟩
      rw [autoVersionLoopAux, hr, except_bind_ok]
      rw [fitsVersion, hr] at hfit
      have hle : r.1.getLengthInBits ≤ r.2.2 := by
        rcases r with ⟨b, bl, m⟩
        simpa using hfit
      rw [if_pos hle]
      rfl
  | succ fuel ih =>
    intro v hfuel hv1 hvs
    match hr : prepareData v errorCorrectLevel dataList with
    | .error e =>
      have := hok v (by omega) (by omega)
      rw [hr] at this
      simp [Except.isOk, Except.toBool] at this
    | .ok r =>
      by_cases hveq : v = vstar
      · subst hveq
        refine ⟨r, hr, ?_⟩
        rw [autoVersionLoopAux, hr, except_bind_ok]
        rw [fitsVersion, hr] at hfit
        have hle : r.1.getLengthInBits ≤ r.2.2 := by
          rcases r with ⟨b, bl, m⟩
          simpa using hfit
        rw [if_pos hle]
        rfl
      · have hvlt : v < vstar := by omega
        have hnofit := hleast v hvlt hv1
        rw [fitsVersion, hr] at hnofit
        have hgt : ¬ r.1.getLengthInBits ≤ r.2.2 := by
          rcases r with ⟨b, bl, m⟩
          simpa using hnofit
        have hv40 : v < 40 := by omega
        obtain ⟨r2, hr2, hloop⟩ := ih (v + 1) (by omega) (by omega) (by omega)
        refine ⟨r2, hr2, ?_⟩
        rw [autoVersionLoopAux, hr, except_bind_ok, if_neg hgt]
        simp only [if_pos hv40]
        exact hloop

/-- C2 (amended): with an explicitly specified version, encoding
succeeds exactly when the payload's header+body bits fit
`maxDataCount(version, ecl)` and fails with a data-overflow error
otherwise — the set of fitting versions need not be upward closed,
because character-count indicators widen at versions 10 and 27 — and
with version 0 (auto) the encoder selects exactly the smallest fitting
version. -/
theorem makeEncode_fit_characterisation :
    (∀ version errorCorrectLevel : Nat, ∀ dataList : List QRData,
      ∀ (buffer : BitBuffer) (rsBlocks : List RSBlock) (maxDataCount : Nat),
      prepareData version errorCorrectLevel dataList = .ok (buffer, rsBlocks, maxDataCount) →
      ((buffer.getLengthInBits ≤ maxDataCount →
          ∃ d, makeEncode version false errorCorrectLevel dataList = .ok (version, d)) ∧
        (maxDataCount < buffer.getLengthInBits →
          makeEncode version false errorCorrectLevel dataList =
            .error s!"data overflow: {buffer.getLengthInBits} > {maxDataCount}"))) ∧
    (∀ errorCorrectLevel : Nat, ∀ dataList : List QRData, ∀ vstar : Nat,
      1 ≤ vstar → vstar ≤ 40 →
      fitsVersion errorCorrectLevel dataList vstar = true →
      (∀ v < vstar, 1 ≤ v → fitsVersion errorCorrectLevel dataList v = false) →
      (∀ v < 41, 1 ≤ v → (prepareData v errorCorrectLevel dataList).isOk = true) →
      ∃ d, makeEncode 0 true errorCorrectLevel dataList = .ok (vstar, d)) := by
  constructor
  · intro version errorCorrectLevel dataList buffer rsBlocks maxDataCount hprep
    have hbody : makeEncode version false errorCorrectLevel dataList =
        (createData buffer rsBlocks maxDataCount) >>= fun data => pure (version, data) := by
      rw [makeEncode]
      simp only [Bool.false_eq_true, if_false, hprep, except_bind_ok, except_pure_bind]
    constructor
    · intro hfit
      rw [hbody, createData, createDataBuffer]
      rw [if_neg (by unfold BitBuffer.getLengthInBits at *; omega)]
      exact ⟨_, rfl⟩
    · intro hover
      rw [hbody, createData, createDataBuffer, if_pos hover]
      rfl
  · intro errorCorrectLevel dataList vstar h1 h40 hfit hleast hok
    obtain ⟨r, hr, hloop⟩ := autoVersionLoopAux_least errorCorrectLevel dataList vstar h40
      hfit hleast hok 39 1 rfl le_rfl h1
    rcases r with ⟨bb, bl, mm⟩
    have hle : bb.getLengthInBits ≤ mm := by
      rw [fitsVersion, hr] at hfit
      simpa using hfit
    rw [makeEncode]
    simp only [if_true, autoVersionLoop, hloop, except_bind_ok, except_pure_bind]
    show ∃ d, (createData bb bl mm >>= fun data => pure (vstar, data)) = .ok (vstar, d)
    have hcond : ¬ mm < bb.getLengthInBits := by omega
    rw [createData, createDataBuffer, if_neg hcond]
    exact ⟨_, rfl⟩

/-- Witness for `makeEncode_fit_characterisation`: the auto-version
encoder selects version 9 for 36 one-byte Byte segments at level H. -/
theorem makeEncode_fit_characterisation_witness :
    ∃ d, makeEncode 0 true 2 (List.replicate 36 (QRData.byte [65])) = .ok (9, d) :=
  makeEncode_fit_characterisation.2 2 (List.replicate 36 (QRData.byte [65])) 9
    (by decide) (by decide) (by rfl) (by decide) (by decide)

/-! ## Penalty rule 1 (C5) -/

theorem penaltyCell_eq (modules : List (List Bool)) (row col : Nat) :
    (([-1, 0, 1] : List Int).map fun r =>
      (([-1, 0, 1] : List Int).map fun c =>
        if (row : Int) + r < 0 ∨ (modules.length : Int) ≤ (row : Int) + r then 0
        else if (col : Int) + c < 0 ∨ (modules.length : Int) ≤ (col : Int) + c then 0
        else if r = 0 ∧ c = 0 then 0
        else if isDarkM modules row col ==
            isDarkM modules ((row : Int) + r).toNat ((col : Int) + c).toNat
          then 1 else 0).sum).sum = sameNeighborCount modules row col := by
  have hm1 : ((-1 : Int) = 0) = False := eq_false (by decide)
  have hp1 : ((1 : Int) = 0) = False := eq_false (by decide)
  have h0 : ((0 : Int) = 0) = True := eq_true rfl
  simp only [sameNeighborCount, List.map_cons, List.map_nil, List.sum_cons, List.sum_nil,
    hm1, hp1, h0, and_false, false_and, and_true, true_and, if_false, if_true, ite_self]
  omega

/-- C5 counterexample: on the all-dark 5×5 matrix the implemented rule 1
scores 54 (nine interior cells with 8 same-coloured neighbours each,
contributing `3 + 8 - 5`), while the run-based rule the claim states
scores 30 (ten maximal runs of length 5, 3 points each). -/
theorem penaltyRule1_not_run_based :
    penaltyRule1 (List.replicate 5 (List.replicate 5 true)) = 54 ∧
    runRule1 (List.replicate 5 (List.replicate 5 true)) = 30 ∧
    penaltyRule1 (List.replicate 5 (List.replicate 5 true)) ≠
      runRule1 (List.replicate 5 (List.replicate 5 true)) := by
  refine ⟨by decide, by decide, by decide⟩

/-- C5 (amended): the implemented penalty rule 1 is a 3×3
neighbour-count rule, not a run rule: each module with more than five
same-coloured neighbours among its up to eight adjacent modules adds
`3 + (sameNeighborCount - 5)`. -/
theorem penaltyRule1_eq_neighborRule1 (modules : List (List Bool)) :
    penaltyRule1 modules = neighborRule1 modules := by
  unfold penaltyRule1 neighborRule1
  apply congrArg List.sum
  apply List.map_congr_left
  intro row _
  apply congrArg List.sum
  apply List.map_congr_left
  intro col _
  simp only
  rw [penaltyCell_eq]
  rcases Nat.lt_or_ge 5 (sameNeighborCount modules row col) with h | h
  · rw [if_pos h, if_pos h]
    omega
  · rw [if_neg (by omega), if_neg (by omega)]

/-! ## Best mask selection (C4) -/

theorem bestFoldRange (score : Nat → Nat) :
    ∀ (k a m p : Nat), 0 < a → score p = m →
    (score ((List.range' a k).foldl
        (fun (st : Nat × Nat) i => if i = 0 ∨ st.1 > score i then (score i, i) else st)
        (m, p)).2 =
      ((List.range' a k).foldl
        (fun (st : Nat × Nat) i => if i = 0 ∨ st.1 > score i then (score i, i) else st)
        (m, p)).1) ∧
    (((List.range' a k).foldl
        (fun (st : Nat × Nat) i => if i = 0 ∨ st.1 > score i then (score i, i) else st)
        (m, p)).1 ≤ m) ∧
    (∀ i, a ≤ i → i < a + k →
      ((List.range' a k).foldl
        (fun (st : Nat × Nat) i => if i = 0 ∨ st.1 > score i then (score i, i) else st)
        (m, p)).1 ≤ score i) ∧
    ((((List.range' a k).foldl
        (fun (st : Nat × Nat) i => if i = 0 ∨ st.1 > score i then (score i, i) else st)
        (m, p)).1 = m ∧
      ((List.range' a k).foldl
        (fun (st : Nat × Nat) i => if i = 0 ∨ st.1 > score i then (score i, i) else st)
        (m, p)).2 = p) ∨
     (((List.range' a k).foldl
        (fun (st : Nat × Nat) i => if i = 0 ∨ st.1 > score i then (score i, i) else st)
        (m, p)).1 < m ∧
      a ≤ ((List.range' a k).foldl
        (fun (st : Nat × Nat) i => if i = 0 ∨ st.1 > score i then (score i, i) else st)
        (m, p)).2 ∧
      ((List.range' a k).foldl
        (fun (st : Nat × Nat) i => if i = 0 ∨ st.1 > score i then (score i, i) else st)
        (m, p)).2 < a + k ∧
      ∀ i, a ≤ i → i < ((List.range' a k).foldl
        (fun (st : Nat × Nat) i => if i = 0 ∨ st.1 > score i then (score i, i) else st)
        (m, p)).2 →
        ((List.range' a k).foldl
          (fun (st : Nat × Nat) i => if i = 0 ∨ st.1 > score i then (score i, i) else st)
          (m, p)).1 < score i)) := by
  intro k
  induction k with
  | zero =>
    intro a m p ha hp
    refine ⟨hp, le_rfl, fun i h1 h2 => by omega, Or.inl ⟨rfl, rfl⟩⟩

  | succ k ih =>
    intro a m p ha hp
    rw [List.range'_succ, List.foldl_cons]
    by_cases hrepl : m > score a
    · rw [if_pos (Or.inr hrepl)]
      obtain ⟨ih1, ih2, ih3, ih4⟩ := ih (a + 1) (score a) a (by omega) rfl
      refine ⟨ih1, by omega, ?_, ?_⟩
      · intro i hi1 hi2
        by_cases hia : i = a
        · subst hia
          omega
        · exact ih3 i (by omega) (by omega)
      · right
        rcases ih4 with ⟨he1, he2⟩ | ⟨hlt, hge, hub, hstrict⟩
        · rw [he1, he2]
          exact ⟨hrepl, by omega, by omega, fun i h1 h2 => by omega⟩
        · refine ⟨by omega, by omega, by omega, ?_⟩
          intro i h1 h2
          by_cases hia : i = a
          · subst hia
            omega
          · exact hstrict i (by omega) h2
    · rw [if_neg (by simp [hrepl]; omega)]
      obtain ⟨ih1, ih2, ih3, ih4⟩ := ih (a + 1) m p (by omega) hp
      refine ⟨ih1, ih2, ?_, ?_⟩
      · intro i hi1 hi2
        by_cases hia : i = a
        · subst hia
          omega
        · exact ih3 i (by omega) (by omega)
      · rcases ih4 with ⟨he1, he2⟩ | ⟨hlt, hge, hub, hstrict⟩
        · exact Or.inl ⟨he1, he2⟩
        · right
          refine ⟨hlt, by omega, by omega, ?_⟩
          intro i h1 h2
          by_cases hia : i = a
          · subst hia
            omega
          · exact hstrict i (by omega) h2

/-- C4: for every score oracle (the penalty of the matrix built with
each mask), `getBestMaskPattern` returns a mask in `[0, 8)` whose score
is minimal among all 8 masks, and on ties it returns the lowest mask
id.  (`makeImpl(true, data, i)` + `getPenaltyScore` is abstracted as
the oracle `score`, and `make` then emits the matrix built with the
returned mask.) -/
theorem getBestMaskPattern_min (score : Nat → Nat) :
    getBestMaskPattern score < 8 ∧
    (∀ i < 8, score (getBestMaskPattern score) ≤ score i) ∧
    (∀ i < 8, score i = score (getBestMaskPattern score) → getBestMaskPattern score ≤ i) := by
  have hrange : List.range 8 = 0 :: List.range' 1 7 := by
    rw [List.range_eq_range', List.range'_succ]
  unfold getBestMaskPattern
  rw [hrange, List.foldl_cons, if_pos (Or.inl rfl)]
  obtain ⟨h1, h2, h3, h4⟩ := bestFoldRange score 7 1 (score 0) 0 (by omega) rfl
  refine ⟨?_, ?_, ?_⟩
  · rcases h4 with ⟨_, he⟩ | ⟨_, _, hub, _⟩
    · rw [he]
      omega
    · omega
  · intro i hi
    by_cases hi0 : i = 0
    · subst hi0
      rw [h1]
      exact h2
    · rw [h1]
      exact h3 i (by omega) (by omega)
  · intro i hi htie
    rcases h4 with ⟨hm, he⟩ | ⟨hlt, hge, hub, hstrict⟩
    · rw [he]
      omega
    · by_cases hi0 : i = 0
      · subst hi0
        rw [← h1] at hlt
        omega
      · by_cases hlt2 : i < (((List.range' 1 7).foldl
            (fun (st : Nat × Nat) i => if i = 0 ∨ st.1 > score i then (score i, i) else st)
            (score 0, 0)).2)
        · have := hstrict i (by omega) hlt2
          rw [← h1] at this
          omega
        · omega

/-! ## Theorems for setVersion (C10) -/

/-- C10 counterexample: the claim asserts that every argument above 40
stores 40, but `4294967296 = 2^32` wraps to 0 under the unsigned 32-bit
conversion, so `setVersion` stores 0 (and sets the auto flag). -/
theorem setVersion_wraps_above_forty :
    setVersion 4294967296 = 0 ∧ (40 : Int) < 4294967296 ∧
      autoVersionAfterSet 4294967296 = true := by
  decide

/-- C10 (amended): `setVersion` never fails, stores
`min 40 (ToUint32 version)` — hence a value in `[0, 40]` — and sets the
auto flag exactly when the stored version is 0.  Arguments in
`(40, 2^32)` store 40, and negative arguments in `[-(2^32-41), -1]`
store 40; other out-of-range arguments wrap modulo `2^32` first. -/
theorem setVersion_clamps (v : Int) :
    setVersion v ≤ 40 ∧
      (autoVersionAfterSet v = true ↔ setVersion v = 0) ∧
      setVersion v = min 40 (toUint32 v) ∧
      (40 < v → v < 4294967296 → setVersion v = 40) ∧
      (-4294967255 ≤ v → v < 0 → setVersion v = 40) := by
  simp only [setVersion, autoVersionAfterSet, toUint32, beq_iff_eq, Nat.zero_max]
  rcases le_or_lt ((v % 4294967296).toNat) 40 with h | h
  · rw [min_eq_right h]
    exact ⟨h, trivial, trivial, fun h1 h2 => by omega, fun h1 h2 => by omega⟩
  · rw [min_eq_left (le_of_lt h)]
    exact ⟨le_refl 40, trivial, trivial, fun _ _ => rfl, fun _ _ => rfl⟩

/-- Witness for `setVersion_clamps` at `v = 100` and `v = -1`. -/
theorem setVersion_clamps_witness :
    setVersion 100 = 40 ∧ setVersion (-1) = 40 :=
  ⟨(setVersion_clamps 100).2.2.2.1 (by decide) (by decide),
   (setVersion_clamps (-1)).2.2.2.2 (by decide) (by decide)⟩

/-! ## Theorems for computeDimension (C8) -/

/-- C8 counterexample: with both rounded inter-finder counts equal to
24, the computed dimension is `floor(48/2) + 7 = 31 ≡ 3 (mod 4)`; the
`switch` leaves residue 3 untouched, so the returned dimension is not
congruent to 1 modulo 4 as the claim asserts. -/
theorem computeDimension_mod_four_counterexample :
    computeDimension 24 24 = 31 ∧ computeDimension 24 24 % 4 ≠ 1 := by
  decide

/-- C8 (amended): the `switch` only adjusts residues 0 (`+1`) and 2
(`-1`); residues 1 and 3 are returned unchanged.  Hence the result is
always odd — congruent to 1 or 3 modulo 4 — and it is congruent to 3
exactly when `floor((topDimension+sideDimension)/2) + 7 ≡ 3 (mod 4)`
(that case is *not* snapped to a value `≡ 1 (mod 4)`). -/
theorem computeDimension_snap (topDimension sideDimension : Nat) :
    (computeDimension topDimension sideDimension % 4 = 1 ∨
      computeDimension topDimension sideDimension % 4 = 3) ∧
      (computeDimension topDimension sideDimension % 4 = 3 ↔
        ((topDimension + sideDimension) / 2 + 7) % 4 = 3) := by
  have h4 : ((topDimension + sideDimension) / 2 + 7) % 4 = 0 ∨
      ((topDimension + sideDimension) / 2 + 7) % 4 = 1 ∨
      ((topDimension + sideDimension) / 2 + 7) % 4 = 2 ∨
      ((topDimension + sideDimension) / 2 + 7) % 4 = 3 := by omega
  simp only [computeDimension]
  rcases h4 with h | h | h | h <;> simp only [h] <;> norm_num <;> omega

/-! ## Theorems for the Kanji value mapping (C9) -/

/-- C9 counterexample: `0x8200` lies in `[0x8140, 0x9ffc]` but has an
invalid Shift-JIS trail byte `0x00 < 0x40`; the encoder maps it to the
13-bit value `0xc0`, which the decoder maps back to `0x8240 ≠ 0x8200`,
so the decode mapping is not a left inverse on the full interval. -/
theorem kanjiRoundTrip_counterexample :
    kanjiEncodeValue 0x8200 = .ok 0xc0 ∧ kanjiDecodeValue 0xc0 = 0x8240 ∧
      (0x8140 ≤ 0x8200 ∧ (0x8200 : Nat) ≤ 0x9ffc) ∧ 0x8240 ≠ 0x8200 := by
  refine ⟨rfl, by decide, by decide, by decide⟩

/-- C9 (amended): on every code of the two ranges whose low byte is at
least `0x40` — which includes every valid two-byte Shift-JIS code, as
Shift-JIS trail bytes lie in `[0x40, 0xfc]` — the decoder's 13-bit
value-to-code mapping is a left inverse of the encoder's mapping. -/
theorem kanjiRoundTrip (code k : Nat)
    (hrange : (0x8140 ≤ code ∧ code ≤ 0x9ffc) ∨ (0xe040 ≤ code ∧ code ≤ 0xebbf))
    (htrail : 0x40 ≤ code % 256)
    (henc : kanjiEncodeValue code = .ok k) :
    kanjiDecodeValue k = code := by
  have hdecode : ∀ base : Nat, base = 0x8140 ∨ base = 0xc140 → base ≤ code →
      (code - base) % 256 < 0xc0 →
      kanjiDecodeValue (((code - base) >>> 8 &&& 0xff) * 0xc0 + ((code - base) &&& 0xff))
        = (if code - base < 0x1f00 then (code - base) + 0x8140
           else (code - base) + 0xc140) := by
    intro base hbase hle hlo
    set c := code - base with hc
    have hcbound : c < 65536 := by omega
    have hsh : c >>> 8 = c / 256 := by
      simpa using Nat.shiftRight_eq_div_pow c 8
    have hhiand : c / 256 &&& 0xff = c / 256 := by
      have : c / 256 < 2 ^ 8 := by omega
      simpa using Nat.and_pow_two_sub_one_of_lt_two_pow this
    have hloand : c &&& 0xff = c % 256 := by
      simpa using Nat.and_pow_two_sub_one_eq_mod c 8
    rw [hsh, hhiand, hloand]
    have hdiv : ((c / 256) * 0xc0 + c % 256) / 0xc0 = c / 256 := by
      rw [Nat.mul_comm (c / 256) 0xc0, Nat.mul_add_div (by norm_num)]
      omega
    have hmod : ((c / 256) * 0xc0 + c % 256) % 0xc0 = c % 256 := by
      rw [Nat.mul_comm (c / 256) 0xc0, Nat.mul_add_mod]
      omega
    simp only [kanjiDecodeValue, hdiv, hmod]
    have hor : (c / 256) <<< 8 ||| c % 256 = c := by
      rw [Nat.shiftLeft_eq]
      have hm : c % 256 < 2 ^ 8 := by omega
      rw [Nat.mul_comm (c / 256) (2 ^ 8), ← Nat.mul_add_lt_is_or hm (c / 256)]
      omega
    rw [hor]
  rcases hrange with ⟨h1, h2⟩ | ⟨h1, h2⟩
  · have hlo : (code - 0x8140) % 256 < 0xc0 := by omega
    have := hdecode 0x8140 (Or.inl rfl) h1 hlo
    simp only [kanjiEncodeValue, if_pos (And.intro h1 h2)] at henc
    cases henc
    rw [this, if_pos (by omega)]
    omega
  · have hlo : (code - 0xc140) % 256 < 0xc0 := by omega
    have := hdecode 0xc140 (Or.inr rfl) (by omega) hlo
    have hnot : ¬ (0x8140 ≤ code ∧ code ≤ 0x9ffc) := by omega
    simp only [kanjiEncodeValue, if_neg hnot, if_pos (And.intro h1 h2)] at henc
    cases henc
    rw [this, if_neg (by omega)]
    omega

/-- Witness for `kanjiRoundTrip` at the Shift-JIS code `0x8abf`
(the character 漢), whose 13-bit encoding is `9·0xc0 + 0x7f = 1855`. -/
theorem kanjiRoundTrip_witness : kanjiDecodeValue 1855 = 0x8abf :=
  kanjiRoundTrip 0x8abf 1855 (Or.inl (by decide)) (by decide) rfl


/-! ## Theorems for the segment decoder (C7) -/

/-- Counterexample to C7: on the byte stream `[0x10, 0x05, 0x04]`
(version 1) the decoder reads a Numeric chunk `"4"`, then hits stream
underflow while reading the next chunk's 10-bit count indicator.
`readBits` throws, `decode$1` has no handler, so `decodeMatrix`'s
`catch` turns the whole decode into `null`: the gathered chunk is
discarded, not returned. -/
theorem decodeSegs_underflow_discards_chunks :
    decodeSegs [16, 5, 4] 1 =
      .threw "can't read 10 bits" ⟨[52], [Chunk.numeric [52]]⟩ ∧
    decodeMatrixTail [16, 5, 4] 1 = none := by
  exact ⟨rfl, rfl⟩

/-- C7 (amended): a thrown stream underflow (or any other exception)
inside `decode$1` makes `decodeMatrix` return `null`; the chunks
gathered before the throw are lost.  Only the explicit `return result`
paths of `decode$1` produce a decode result. -/
theorem decodeMatrixTail_eq_some_iff (data : List Nat) (version : Nat)
    (r : DecResult) :
    decodeMatrixTail data version = some r ↔ decodeSegs data version = .ok r := by
  unfold decodeMatrixTail
  cases h : decodeSegs data version <;> simp

/-- Witness for `decodeMatrixTail_eq_some_iff`: the clean one-digit
numeric stream `[0x10, 0x04, 0xc0]` decodes to the single chunk `"3"`
(mode 0001, count 1, digit 0011, terminator 0000, zero padding). -/
theorem decodeMatrixTail_eq_some_iff_witness :
    decodeMatrixTail [16, 4, 192] 1 = some ⟨[51], [Chunk.numeric [51]]⟩ :=
  (decodeMatrixTail_eq_some_iff [16, 4, 192] 1 ⟨[51], [Chunk.numeric [51]]⟩).mpr rfl


/-! ## Popcount theory for `numBitsDiffering` (C6) -/

theorem bitCountAux_fuel (z : Nat) :
    ∀ f₁ f₂, z ≤ f₁ → z ≤ f₂ → bitCountAux f₁ z = bitCountAux f₂ z := by
  induction z using Nat.strong_induction_on with
  | _ z ih =>
    intro f₁ f₂ h1 h2
    by_cases hz : z = 0
    · subst hz
      cases f₁ <;> cases f₂ <;> simp [bitCountAux]
    · obtain ⟨a, rfl⟩ : ∃ a, f₁ = a + 1 := ⟨f₁ - 1, by omega⟩
      obtain ⟨b, rfl⟩ : ∃ b, f₂ = b + 1 := ⟨f₂ - 1, by omega⟩
      simp only [bitCountAux, if_neg hz]
      have hle : z &&& (z - 1) ≤ z - 1 := Nat.and_le_right
      rw [ih (z &&& (z - 1)) (by omega) a b (by omega) (by omega)]

theorem bitCount_step (z : Nat) (hz : 0 < z) :
    bitCountKernighan z = bitCountKernighan (z &&& (z - 1)) + 1 := by
  obtain ⟨m, rfl⟩ : ∃ m, z = m + 1 := ⟨z - 1, by omega⟩
  simp only [Nat.add_sub_cancel]
  show bitCountAux (m + 1) (m + 1) =
    bitCountAux ((m + 1) &&& m) ((m + 1) &&& m) + 1
  simp only [bitCountAux, if_neg (by omega : ¬ m + 1 = 0), Nat.add_sub_cancel]
  have hle : (m + 1) &&& m ≤ m := Nat.and_le_right
  rw [bitCountAux_fuel ((m + 1) &&& m) m ((m + 1) &&& m) (by omega) (le_refl _)]

theorem binCountAux_fuel (z : Nat) :
    ∀ f₁ f₂, z ≤ f₁ → z ≤ f₂ → binCountAux f₁ z = binCountAux f₂ z := by
  induction z using Nat.strong_induction_on with
  | _ z ih =>
    intro f₁ f₂ h1 h2
    by_cases hz : z = 0
    · subst hz
      cases f₁ <;> cases f₂ <;> simp [binCountAux]
    · obtain ⟨a, rfl⟩ : ∃ a, f₁ = a + 1 := ⟨f₁ - 1, by omega⟩
      obtain ⟨b, rfl⟩ : ∃ b, f₂ = b + 1 := ⟨f₂ - 1, by omega⟩
      simp only [binCountAux, if_neg hz]
      rw [ih (z / 2) (by omega) a b (by omega) (by omega)]

theorem binCount_step (z : Nat) (hz : 0 < z) :
    binCount z = binCount (z / 2) + z % 2 := by
  obtain ⟨m, rfl⟩ : ∃ m, z = m + 1 := ⟨z - 1, by omega⟩
  show binCountAux (m + 1) (m + 1) =
    binCountAux ((m + 1) / 2) ((m + 1) / 2) + (m + 1) % 2
  simp only [binCountAux, if_neg (by omega : ¬ m + 1 = 0)]
  rw [binCountAux_fuel ((m + 1) / 2) m ((m + 1) / 2) (by omega) (le_refl _)]

theorem binCount_two_mul (k : Nat) : binCount (2 * k) = binCount k := by
  by_cases hk : k = 0
  · subst hk; rfl
  · rw [binCount_step (2 * k) (by omega)]
    have h1 : 2 * k / 2 = k := by omega
    have h2 : 2 * k % 2 = 0 := by omega
    rw [h1, h2, Nat.add_zero]

theorem binCount_two_mul_add_one (k : Nat) :
    binCount (2 * k + 1) = binCount k + 1 := by
  rw [binCount_step (2 * k + 1) (by omega)]
  have h1 : (2 * k + 1) / 2 = k := by omega
  have h2 : (2 * k + 1) % 2 = 1 := by omega
  rw [h1, h2]

theorem and_pred_odd (k : Nat) : (2 * k + 1) &&& (2 * k) = 2 * k := by
  apply Nat.eq_of_testBit_eq
  intro i
  cases i with
  | zero =>
    have h1 : (2 * k + 1) % 2 = 1 := by omega
    have h2 : (2 * k) % 2 = 0 := by omega
    simp [Nat.testBit_and, Nat.testBit_zero, h1, h2]
  | succ i =>
    have h1 : (2 * k + 1) / 2 = k := by omega
    have h2 : (2 * k) / 2 = k := by omega
    rw [Nat.testBit_and, Nat.testBit_add_one, Nat.testBit_add_one, h1, h2,
      Bool.and_self]

theorem and_pred_even (k : Nat) (hk : 0 < k) :
    (2 * k) &&& (2 * k - 1) = 2 * (k &&& (k - 1)) := by
  apply Nat.eq_of_testBit_eq
  intro i
  cases i with
  | zero =>
    have h1 : (2 * k) % 2 = 0 := by omega
    have h2 : (2 * (k &&& (k - 1))) % 2 = 0 := by omega
    simp [Nat.testBit_and, Nat.testBit_zero, h1, h2]
  | succ i =>
    have h1 : (2 * k) / 2 = k := by omega
    have h2 : (2 * k - 1) / 2 = k - 1 := by omega
    have h3 : (2 * (k &&& (k - 1))) / 2 = k &&& (k - 1) := by omega
    rw [Nat.testBit_and, Nat.testBit_add_one, Nat.testBit_add_one,
      Nat.testBit_add_one, h1, h2, h3, Nat.testBit_and]

theorem binCount_and_pred (z : Nat) :
    0 < z → binCount z = binCount (z &&& (z - 1)) + 1 := by
  induction z using Nat.strong_induction_on with
  | _ z ih =>
    intro hz
    by_cases h2 : z % 2 = 1
    · obtain ⟨k, rfl⟩ : ∃ k, z = 2 * k + 1 := ⟨z / 2, by omega⟩
      have he : 2 * k + 1 - 1 = 2 * k := by omega
      rw [he, and_pred_odd, binCount_two_mul, binCount_two_mul_add_one]
    · obtain ⟨k, rfl⟩ : ∃ k, z = 2 * k := ⟨z / 2, by omega⟩
      have hk : 0 < k := by omega
      rw [and_pred_even k hk, binCount_two_mul, binCount_two_mul,
        ih k (by omega) hk]

theorem bitCount_eq_binCount (z : Nat) : bitCountKernighan z = binCount z := by
  induction z using Nat.strong_induction_on with
  | _ z ih =>
    by_cases hz : z = 0
    · subst hz; rfl
    · have hle : z &&& (z - 1) ≤ z - 1 := Nat.and_le_right
      rw [bitCount_step z (by omega), ih (z &&& (z - 1)) (by omega),
        ← binCount_and_pred z (by omega)]

theorem xor_mod_two_le (a b : Nat) : (a ^^^ b) % 2 ≤ a % 2 + b % 2 := by
  have h : (a ^^^ b) % 2 = (a % 2) ^^^ (b % 2) := by
    rw [← Nat.and_one_is_mod, ← Nat.and_one_is_mod a, ← Nat.and_one_is_mod b,
      Nat.and_xor_distrib_right]
  rcases Nat.mod_two_eq_zero_or_one a with h1 | h1 <;>
    rcases Nat.mod_two_eq_zero_or_one b with h2 | h2 <;>
      rw [h, h1, h2] <;> simp

theorem binCount_xor_le : ∀ a b : Nat, binCount (a ^^^ b) ≤ binCount a + binCount b := by
  intro a
  induction a using Nat.strong_induction_on with
  | _ a ih =>
    intro b
    by_cases ha : a = 0
    · subst ha; simp [Nat.zero_xor]
    · by_cases hb : b = 0
      · subst hb; simp [Nat.xor_zero]
      · by_cases hab : a ^^^ b = 0
        · rw [hab]
          exact Nat.zero_le _
        · have e1 : binCount (a ^^^ b) = binCount (a / 2 ^^^ b / 2) + (a ^^^ b) % 2 := by
            rw [binCount_step (a ^^^ b) (by omega), Nat.xor_div_two]
          have e2 : binCount a = binCount (a / 2) + a % 2 := binCount_step a (by omega)
          have e3 : binCount b = binCount (b / 2) + b % 2 := binCount_step b (by omega)
          have e4 := ih (a / 2) (by omega) (b / 2)
          have e5 := xor_mod_two_le a b
          omega

theorem numBitsDiffering_self (x : Nat) : numBitsDiffering x x = 0 := by
  unfold numBitsDiffering
  rw [Nat.xor_self]
  rfl

theorem numBitsDiffering_comm (x y : Nat) :
    numBitsDiffering x y = numBitsDiffering y x := by
  unfold numBitsDiffering
  rw [Nat.xor_comm]

theorem numBitsDiffering_triangle (x y z : Nat) :
    numBitsDiffering x z ≤ numBitsDiffering x y + numBitsDiffering y z := by
  unfold numBitsDiffering
  have hxz : x ^^^ z = (x ^^^ y) ^^^ (y ^^^ z) := by
    rw [Nat.xor_assoc, ← Nat.xor_assoc y y z, Nat.xor_self, Nat.zero_xor]
  rw [hxz, bitCount_eq_binCount, bitCount_eq_binCount, bitCount_eq_binCount]
  exact binCount_xor_le _ _


/-! ## Theorems for format information matching (C6) -/

theorem scanFormatTable_cons_ne (w1 w2 : Nat) (e : FormatEntry)
    (rest : List FormatEntry) (bd : Nat) (best : Option FormatInfo)
    (hne : ¬(e.bits = w1 ∨ e.bits = w2)) :
    scanFormatTable w1 w2 (e :: rest) bd best =
      scanFormatTable w1 w2 rest
        (if w1 ≠ w2 ∧ numBitsDiffering w2 e.bits <
            (if numBitsDiffering w1 e.bits < bd then numBitsDiffering w1 e.bits else bd)
         then numBitsDiffering w2 e.bits
         else if numBitsDiffering w1 e.bits < bd then numBitsDiffering w1 e.bits else bd)
        (if w1 ≠ w2 ∧ numBitsDiffering w2 e.bits <
            (if numBitsDiffering w1 e.bits < bd then numBitsDiffering w1 e.bits else bd)
         then some e.info
         else if numBitsDiffering w1 e.bits < bd then some e.info else best) := by
  simp only [scanFormatTable, if_neg hne]
  by_cases h1 : numBitsDiffering w1 e.bits < bd <;>
    [rw [if_pos h1, if_pos h1, if_pos h1]; rw [if_neg h1, if_neg h1, if_neg h1]] <;>
  all_goals
    by_cases h2 : w1 ≠ w2 ∧ numBitsDiffering w2 e.bits <
        (if numBitsDiffering w1 e.bits < bd then numBitsDiffering w1 e.bits else bd)
    all_goals
      first
      | (rw [if_pos h1] at h2; rw [if_pos h2, if_pos h2, if_pos h2])
      | (rw [if_pos h1] at h2; rw [if_neg h2, if_neg h2, if_neg h2])
      | (rw [if_neg h1] at h2; rw [if_pos h2, if_pos h2, if_pos h2])
      | (rw [if_neg h1] at h2; rw [if_neg h2, if_neg h2, if_neg h2])

theorem scanFormatTable_tail (w1 w2 : Nat) :
    ∀ (rest : List FormatEntry) (bd : Nat) (best : Option FormatInfo),
      bd ≤ 3 →
      (∀ f ∈ rest, 4 ≤ numBitsDiffering w1 f.bits ∧ 4 ≤ numBitsDiffering w2 f.bits) →
      scanFormatTable w1 w2 rest bd best = best := by
  intro rest
  induction rest with
  | nil =>
    intro bd best hbd _
    simp only [scanFormatTable, if_pos hbd]
  | cons f rest ih =>
    intro bd best hbd hrest
    have hf := hrest f (List.mem_cons_self f rest)
    have hne : ¬(f.bits = w1 ∨ f.bits = w2) := by
      rintro (h | h)
      · rw [h, numBitsDiffering_comm, numBitsDiffering_self] at hf
        omega
      · rw [h, numBitsDiffering_comm, numBitsDiffering_self] at hf
        omega
    rw [scanFormatTable_cons_ne w1 w2 f rest bd best hne]
    have hc1 : ¬ numBitsDiffering w1 f.bits < bd := by omega
    rw [if_neg hc1, if_neg hc1]
    have hc2 : ¬(w1 ≠ w2 ∧ numBitsDiffering w2 f.bits < bd) := by
      rintro ⟨_, h⟩
      omega
    rw [if_neg hc2, if_neg hc2]
    exact ih bd best hbd (fun g hg => hrest g (List.mem_cons_of_mem f hg))

theorem scanFormatTable_before (w1 w2 : Nat) :
    ∀ (pre : List FormatEntry) (bd : Nat) (best : Option FormatInfo)
      (rest : List FormatEntry),
      4 ≤ bd →
      (∀ f ∈ pre, 4 ≤ numBitsDiffering w1 f.bits ∧ 4 ≤ numBitsDiffering w2 f.bits) →
      ∃ bd₂ best₂, 4 ≤ bd₂ ∧
        scanFormatTable w1 w2 (pre ++ rest) bd best =
          scanFormatTable w1 w2 rest bd₂ best₂ := by
  intro pre
  induction pre with
  | nil =>
    intro bd best rest hbd _
    exact ⟨bd, best, hbd, rfl⟩
  | cons f pre ih =>
    intro bd best rest hbd hpre
    have hf := hpre f (List.mem_cons_self f pre)
    have hne : ¬(f.bits = w1 ∨ f.bits = w2) := by
      rintro (h | h)
      · rw [h, numBitsDiffering_comm, numBitsDiffering_self] at hf
        omega
      · rw [h, numBitsDiffering_comm, numBitsDiffering_self] at hf
        omega
    rw [List.cons_append, scanFormatTable_cons_ne w1 w2 f (pre ++ rest) bd best hne]
    have hpre2 : ∀ g ∈ pre, 4 ≤ numBitsDiffering w1 g.bits ∧ 4 ≤ numBitsDiffering w2 g.bits :=
      fun g hg => hpre g (List.mem_cons_of_mem f hg)
    by_cases h2 : w1 ≠ w2 ∧ numBitsDiffering w2 f.bits <
        (if numBitsDiffering w1 f.bits < bd then numBitsDiffering w1 f.bits else bd)
    · rw [if_pos h2, if_pos h2]
      exact ih (numBitsDiffering w2 f.bits) (some f.info) rest (by omega) hpre2
    · rw [if_neg h2, if_neg h2]
      by_cases h1 : numBitsDiffering w1 f.bits < bd
      · rw [if_pos h1, if_pos h1]
        exact ih (numBitsDiffering w1 f.bits) (some f.info) rest (by omega) hpre2
      · rw [if_neg h1, if_neg h1]
        exact ih bd best rest hbd hpre2

set_option maxRecDepth 100000 in
theorem format_table_pairwise :
    ∀ e ∈ FORMAT_INFO_TABLE, ∀ f ∈ FORMAT_INFO_TABLE,
      e.bits ≠ f.bits → 7 ≤ numBitsDiffering e.bits f.bits := by decide

theorem format_table_nodup :
    (FORMAT_INFO_TABLE.map (fun f => f.bits)).Nodup := by decide

/-- C6: for every entry of the 32-entry format-information table and
any observed pair of 15-bit words each within Hamming distance 3 of the
entry's bits, `readFormatInformation` returns exactly that entry's
`(errorCorrectionLevel, dataMask)`.  This rests on the table's pairwise
Hamming distance being at least 7. -/
theorem readFormatInformation_corrects (e : FormatEntry) (w1 w2 : Nat)
    (he : e ∈ FORMAT_INFO_TABLE)
    (h1 : numBitsDiffering w1 e.bits ≤ 3)
    (h2 : numBitsDiffering w2 e.bits ≤ 3) :
    readFormatInformation w1 w2 = some e.info := by
  obtain ⟨s, t, hst⟩ := List.append_of_mem he
  have hfar : ∀ f ∈ FORMAT_INFO_TABLE, f.bits ≠ e.bits →
      4 ≤ numBitsDiffering w1 f.bits ∧ 4 ≤ numBitsDiffering w2 f.bits := by
    intro f hf hbits
    have h7 := format_table_pairwise e he f hf (fun hh => hbits hh.symm)
    have t1 := numBitsDiffering_triangle e.bits w1 f.bits
    have t2 := numBitsDiffering_triangle e.bits w2 f.bits
    rw [numBitsDiffering_comm e.bits w1] at t1
    rw [numBitsDiffering_comm e.bits w2] at t2
    omega
  have hnodup := format_table_nodup
  rw [hst, List.map_append, List.map_cons, List.nodup_append] at hnodup
  obtain ⟨_, hcons, hdisj⟩ := hnodup
  rw [List.nodup_cons] at hcons
  have hsne : ∀ f ∈ s, f.bits ≠ e.bits := by
    intro f hf heq
    exact hdisj (List.mem_map_of_mem _ hf) (heq ▸ List.mem_cons_self e.bits _)
  have htne : ∀ f ∈ t, f.bits ≠ e.bits := by
    intro f hf heq
    exact hcons.1 (heq ▸ List.mem_map_of_mem _ hf)
  have hmem_s : ∀ f ∈ s, f ∈ FORMAT_INFO_TABLE := by
    intro f hf
    rw [hst]
    exact List.mem_append_left _ hf
  have hmem_t : ∀ f ∈ t, f ∈ FORMAT_INFO_TABLE := by
    intro f hf
    rw [hst]
    exact List.mem_append_right _ (List.mem_cons_of_mem _ hf)
  have htfar : ∀ f ∈ t,
      4 ≤ numBitsDiffering w1 f.bits ∧ 4 ≤ numBitsDiffering w2 f.bits :=
    fun f hf => hfar f (hmem_t f hf) (htne f hf)
  unfold readFormatInformation
  rw [hst]
  obtain ⟨bd₂, best₂, hbd₂, heq⟩ :=
    scanFormatTable_before w1 w2 s 10000 none (e :: t) (by omega)
      (fun f hf => hfar f (hmem_s f hf) (hsne f hf))
  rw [heq]
  by_cases hex : e.bits = w1 ∨ e.bits = w2
  · simp only [scanFormatTable, if_pos hex]
  · rw [scanFormatTable_cons_ne w1 w2 e t bd₂ best₂ hex]
    have hc1 : numBitsDiffering w1 e.bits < bd₂ := by omega
    by_cases hc2 : w1 ≠ w2 ∧ numBitsDiffering w2 e.bits <
        (if numBitsDiffering w1 e.bits < bd₂ then numBitsDiffering w1 e.bits else bd₂)
    · rw [if_pos hc2, if_pos hc2]
      exact scanFormatTable_tail w1 w2 t _ _ (by omega) htfar
    · rw [if_neg hc2, if_neg hc2, if_pos hc1, if_pos hc1]
      exact scanFormatTable_tail w1 w2 t _ _ (by omega) htfar

/-- Witness for `readFormatInformation_corrects`: the entry
`(0x5412, L, mask 0)` observed with 3 bit flips in the first copy and 1
in the second is still decoded correctly. -/
theorem readFormatInformation_corrects_witness :
    (⟨0x5412, ⟨1, 0⟩⟩ : FormatEntry) ∈ FORMAT_INFO_TABLE ∧
    numBitsDiffering 0x5415 0x5412 ≤ 3 ∧ numBitsDiffering 0x5413 0x5412 ≤ 3 ∧
    readFormatInformation 0x5415 0x5413 = some ⟨1, 0⟩ :=
  ⟨by decide, by decide, by decide,
    readFormatInformation_corrects ⟨0x5412, ⟨1, 0⟩⟩ 0x5415 0x5413
      (by decide) (by decide) (by decide)⟩

/-! ## Theorems for RS-block ECC roots (C1) -/



theorem toPoly_zero : toPoly 0 = 0 := by rw [toPoly]; simp

theorem toPoly_eq (n : Nat) :
    toPoly n = Polynomial.C ((n % 2 : Nat) : ZMod 2) + toPoly (n / 2) * Polynomial.X := by
  by_cases h : n = 0
  · subst h
    rw [toPoly_zero]
    simp [toPoly_zero]
  · rw [toPoly, if_neg h]

theorem toPoly_coeff (n : Nat) :
    ∀ i, (toPoly n).coeff i = (if n.testBit i then 1 else 0) := by
  induction n using Nat.strong_induction_on with
  | _ n ih =>
    intro i
    by_cases h : n = 0
    · subst h
      simp [toPoly_zero, Nat.zero_testBit]
    · rw [toPoly_eq]
      cases i with
      | zero =>
        rw [Polynomial.coeff_add, Polynomial.coeff_C, if_pos rfl,
          Polynomial.coeff_mul_X_zero, Nat.testBit_zero]
        rcases Nat.mod_two_eq_zero_or_one n with h2 | h2 <;> rw [h2] <;> simp
      | succ i =>
        rw [Polynomial.coeff_add, Polynomial.coeff_C, if_neg (by omega),
          Polynomial.coeff_mul_X, Nat.testBit_add_one]
        by_cases hn : n / 2 = 0
        · rw [hn] at *
          simp [toPoly_zero, Nat.zero_testBit]
        · rw [ih (n / 2) (by omega) i]
          simp

theorem toPoly_xor (a b : Nat) : toPoly (a ^^^ b) = toPoly a + toPoly b := by
  apply Polynomial.ext
  intro i
  rw [Polynomial.coeff_add, toPoly_coeff, toPoly_coeff, toPoly_coeff,
    Nat.testBit_xor]
  cases ha : a.testBit i <;> cases hb : b.testBit i <;> decide

theorem toPoly_eq_zero_iff (n : Nat) : toPoly n = 0 ↔ n = 0 := by
  constructor
  · intro h
    apply Nat.eq_of_testBit_eq
    intro i
    have hc := congrArg (fun p => Polynomial.coeff p i) h
    simp only [Polynomial.coeff_zero] at hc
    rw [toPoly_coeff] at hc
    cases hb : n.testBit i
    · simp [Nat.zero_testBit]
    · rw [hb] at hc
      simp at hc
  · intro h
    subst h
    exact toPoly_zero

theorem toPoly_one : toPoly 1 = 1 := by
  rw [toPoly_eq]
  simp [toPoly_zero]

theorem toPoly_two_pow (k : Nat) : toPoly (2 ^ k) = Polynomial.X ^ k := by
  apply Polynomial.ext
  intro i
  rw [toPoly_coeff, Polynomial.coeff_X_pow]
  by_cases h : i = k
  · subst h
    simp [Nat.testBit_two_pow_self]
  · rw [if_neg h, if_neg]
    rw [Nat.testBit_two_pow_of_ne (fun hh => h hh.symm)]
    simp

theorem Cong.rfl {f : MPoly} : Cong f f := by
  unfold Cong
  simp

theorem Cong.of_eq {f g : MPoly} (h : f = g) : Cong f g := by
  subst h
  exact Cong.rfl

theorem Cong.symm {f g : MPoly} (h : Cong f g) : Cong g f := by
  unfold Cong at h ⊢
  have : g - f = -(f - g) := by ring
  rw [this]
  exact Dvd.dvd.neg_right h

theorem Cong.trans {f g h : MPoly} (h1 : Cong f g) (h2 : Cong g h) : Cong f h := by
  unfold Cong at h1 h2 ⊢
  have : f - h = (f - g) + (g - h) := by ring
  rw [this]
  exact dvd_add h1 h2

theorem Cong.add {a b c d : MPoly} (h1 : Cong a b) (h2 : Cong c d) :
    Cong (a + c) (b + d) := by
  unfold Cong at h1 h2 ⊢
  have : a + c - (b + d) = (a - b) + (c - d) := by ring
  rw [this]
  exact dvd_add h1 h2

theorem Cong.mul {a b c d : MPoly} (h1 : Cong a b) (h2 : Cong c d) :
    Cong (a * c) (b * d) := by
  unfold Cong at h1 h2 ⊢
  have : a * c - b * d = (a - b) * c + b * (c - d) := by ring
  rw [this]
  exact dvd_add (Dvd.dvd.mul_right h1 c) (Dvd.dvd.mul_left h2 b)

theorem Cong.pow {a b : MPoly} (k : Nat) (h : Cong a b) : Cong (a ^ k) (b ^ k) := by
  induction k with
  | zero => exact Cong.of_eq (by ring)
  | succ k ih =>
    have := Cong.mul ih h
    rw [pow_succ, pow_succ]
    exact this

theorem mpoly_add_self (a : MPoly) : a + a = 0 := by
  apply Polynomial.ext
  intro i
  rw [Polynomial.coeff_add, Polynomial.coeff_zero]
  exact CharTwo.add_self_eq_zero _

theorem cong_zero_small (v : Nat) (hv : v < 256) (h : Cong (toPoly v) 0) : v = 0 := by
  unfold Cong at h
  rw [sub_zero] at h
  by_cases hz : toPoly v = 0
  · exact (toPoly_eq_zero_iff v).mp hz
  · exfalso
    have hdeg := Polynomial.degree_le_of_dvd h hz
    have h8 : ((8 : Nat) : WithBot Nat) ≤ primPoly.degree := by
      apply Polynomial.le_degree_of_ne_zero
      have hb : Nat.testBit 285 8 = true := by decide
      rw [primPoly, toPoly_coeff, hb]
      simp
    have hlt : (toPoly v).degree < ((8 : Nat) : WithBot Nat) := by
      rw [Polynomial.degree_lt_iff_coeff_zero]
      intro m hm
      rw [toPoly_coeff]
      have : v.testBit m = false := by
        apply Nat.testBit_lt_two_pow
        calc v < 256 := hv
        _ = 2 ^ 8 := by norm_num
        _ ≤ 2 ^ m := Nat.pow_le_pow_right (by norm_num) (by exact_mod_cast Nat.cast_le.mp hm)
      rw [this]
      simp
    have := lt_of_le_of_lt (le_trans h8 hdeg) hlt
    exact absurd this (by simp)

set_option maxHeartbeats 1600000 in
theorem exp_table_eq : EXP_TABLE = EXP_LIST := by decide

set_option maxHeartbeats 1600000 in
theorem log_table_eq : LOG_TABLE = LOG_LIST := by decide

theorem glogT_eq : glogT = glogF := by
  funext n
  unfold glogT glogF
  rw [log_table_eq]

theorem gexp_eq : gexp = gexpF := by
  funext n
  unfold gexp gexpF
  rw [exp_table_eq]

theorem gfMul_eq : gfMul = gfMulF := by
  funext a b
  unfold gfMul gfMulF
  rw [gexp_eq, glogT_eq]

theorem evalPoly_eq : evalPoly = evalPolyF := by
  funext cs w
  unfold evalPoly evalPolyF
  rw [gfMul_eq]

theorem multiply_eq : Polynomial.multiply = multiplyF := by
  funext p e
  unfold Polynomial.multiply multiplyF
  rw [gexp_eq, glogT_eq]

theorem gen_poly_eq : getErrorCorrectPolynomial = getErrorCorrectPolynomialF := by
  funext t
  unfold getErrorCorrectPolynomial getErrorCorrectPolynomialF
  rw [multiply_eq, gexp_eq]

theorem modStep_eq_fast : Polynomial.modStep = modStepF := by
  funext p e
  unfold Polynomial.modStep modStepF
  rw [gexp_eq, glogT_eq]

theorem modAux_eq_fast : Polynomial.modAux = modAuxF := by
  funext fuel
  induction fuel with
  | zero =>
    funext p e
    rw [Polynomial.modAux, modAuxF]
  | succ fuel ih =>
    funext p e
    rw [Polynomial.modAux, modAuxF]
    by_cases h : p.getLength < e.getLength
    · rw [if_pos h, if_pos h]
    · rw [if_neg h, if_neg h, modStep_eq_fast, congrFun ih]

theorem mod_eq_fast : Polynomial.mod = modF := by
  funext p e
  unfold Polynomial.mod modF
  rw [modAux_eq_fast]

theorem createBlockData_eq_fast : createBlockData = createBlockDataF := by
  funext buffer rsBlocks
  unfold createBlockData createBlockDataF
  rw [gen_poly_eq, mod_eq_fast]

set_option maxHeartbeats 1600000 in
theorem tables_ok :
    ((List.range 256).all fun i =>
      decide (8 ≤ i → EXP_LIST.getD i 0 =
        EXP_LIST.getD (i - 4) 0 ^^^ EXP_LIST.getD (i - 5) 0 ^^^
        EXP_LIST.getD (i - 6) 0 ^^^ EXP_LIST.getD (i - 8) 0)
      && decide (i < 8 → EXP_LIST.getD i 0 = 2 ^ i)
      && decide (1 ≤ EXP_LIST.getD i 0 ∧ EXP_LIST.getD i 0 ≤ 255)
      && decide (i = 255 → EXP_LIST.getD i 0 = 1)
      && decide (1 ≤ i → i ≤ 255 →
        LOG_LIST.getD i 0 ≤ 254 ∧
        EXP_LIST.getD (LOG_LIST.getD i 0) 0 = i)) = true := by rfl

theorem tables_fact (i : Nat) (hi : i < 256) :
    (8 ≤ i → EXP_TABLE.getD i 0 =
      EXP_TABLE.getD (i - 4) 0 ^^^ EXP_TABLE.getD (i - 5) 0 ^^^
      EXP_TABLE.getD (i - 6) 0 ^^^ EXP_TABLE.getD (i - 8) 0) ∧
    (i < 8 → EXP_TABLE.getD i 0 = 2 ^ i) ∧
    (1 ≤ EXP_TABLE.getD i 0 ∧ EXP_TABLE.getD i 0 ≤ 255) ∧
    (i = 255 → EXP_TABLE.getD i 0 = 1) ∧
    (1 ≤ i → i ≤ 255 →
      LOG_TABLE.getD i 0 ≤ 254 ∧
      EXP_TABLE.getD (LOG_TABLE.getD i 0) 0 = i) := by
  rw [exp_table_eq, log_table_eq]
  have h := tables_ok
  rw [List.all_eq_true] at h
  have hh := h i (List.mem_range.mpr hi)
  simp only [Bool.and_eq_true, decide_eq_true_eq] at hh
  exact ⟨hh.1.1.1.1, hh.1.1.1.2, hh.1.1.2, hh.1.2, hh.2⟩

theorem exp_bounds (i : Nat) (hi : i < 256) :
    1 ≤ EXP_TABLE.getD i 0 ∧ EXP_TABLE.getD i 0 ≤ 255 :=
  (tables_fact i hi).2.2.1

theorem glog_spec (n : Nat) (h1 : 1 ≤ n) (h2 : n ≤ 255) :
    glogT n ≤ 254 ∧ EXP_TABLE.getD (glogT n) 0 = n :=
  (tables_fact n (by omega)).2.2.2.2 h1 h2

theorem cong_iff_add (a b : MPoly) : Cong a b ↔ primPoly ∣ (a + b) := by
  unfold Cong
  have hb : a - b = a + b := by
    have h0 : b + b = 0 := mpoly_add_self b
    have : -b = b := by linear_combination -h0
    rw [sub_eq_add_neg, this]
  rw [hb]

theorem primPoly_expand :
    primPoly = Polynomial.X ^ 8 + Polynomial.X ^ 4 + Polynomial.X ^ 3 +
      Polynomial.X ^ 2 + 1 := by
  have h : (285 : Nat) = 256 ^^^ 16 ^^^ 8 ^^^ 4 ^^^ 1 := by decide
  rw [primPoly, h, toPoly_xor, toPoly_xor, toPoly_xor, toPoly_xor, toPoly_one]
  have h256 : (256 : Nat) = 2 ^ 8 := by norm_num
  have h16 : (16 : Nat) = 2 ^ 4 := by norm_num
  have h8 : (8 : Nat) = 2 ^ 3 := by norm_num
  have h4 : (4 : Nat) = 2 ^ 2 := by norm_num
  rw [h256, h16, h8, h4, toPoly_two_pow, toPoly_two_pow, toPoly_two_pow,
    toPoly_two_pow]

theorem expPoly_cong : ∀ i, i ≤ 255 →
    Cong (toPoly (EXP_TABLE.getD i 0)) ((Polynomial.X : MPoly) ^ i) := by
  intro i
  induction i using Nat.strong_induction_on with
  | _ i ih =>
    intro hi
    by_cases h8 : i < 8
    · rw [(tables_fact i (by omega)).2.1 h8, toPoly_two_pow]
      exact Cong.rfl
    · rw [(tables_fact i (by omega)).1 (by omega), toPoly_xor, toPoly_xor,
        toPoly_xor]
      have c4 := ih (i - 4) (by omega) (by omega)
      have c5 := ih (i - 5) (by omega) (by omega)
      have c6 := ih (i - 6) (by omega) (by omega)
      have c8 := ih (i - 8) (by omega) (by omega)
      apply Cong.trans (((c4.add c5).add c6).add c8)
      obtain ⟨j, rfl⟩ : ∃ j, i = j + 8 := ⟨i - 8, by omega⟩
      have e4 : j + 8 - 4 = j + 4 := by omega
      have e5 : j + 8 - 5 = j + 3 := by omega
      have e6 : j + 8 - 6 = j + 2 := by omega
      have e8 : j + 8 - 8 = j := by omega
      rw [e4, e5, e6, e8, cong_iff_add]
      refine ⟨Polynomial.X ^ j, ?_⟩
      rw [primPoly_expand]
      ring

theorem x255_cong : Cong ((Polynomial.X : MPoly) ^ 255) 1 := by
  have h := expPoly_cong 255 (le_refl 255)
  rw [(tables_fact 255 (by omega)).2.2.2.1 rfl, toPoly_one] at h
  exact h.symm

theorem xpow_cong_of_modEq (a b : Nat) (h : a ≡ b [MOD 255]) :
    Cong ((Polynomial.X : MPoly) ^ a) (Polynomial.X ^ b) := by
  rcases le_total a b with hab | hab
  · obtain ⟨k, hk⟩ := (Nat.modEq_iff_dvd' hab).mp h
    have hb : b = a + 255 * k := by omega
    subst hb
    have h1 : ((Polynomial.X : MPoly) ^ a) = Polynomial.X ^ a * 1 ^ k := by ring
    have h2 : ((Polynomial.X : MPoly) ^ (a + 255 * k)) =
        Polynomial.X ^ a * (Polynomial.X ^ 255) ^ k := by
      rw [pow_add, pow_mul]
    rw [h1, h2]
    exact Cong.mul Cong.rfl ((Cong.pow k x255_cong).symm)
  · obtain ⟨k, hk⟩ := (Nat.modEq_iff_dvd' hab).mp h.symm
    have ha : a = b + 255 * k := by omega
    subst ha
    have h1 : ((Polynomial.X : MPoly) ^ b) = Polynomial.X ^ b * 1 ^ k := by ring
    have h2 : ((Polynomial.X : MPoly) ^ (b + 255 * k)) =
        Polynomial.X ^ b * (Polynomial.X ^ 255) ^ k := by
      rw [pow_add, pow_mul]
    rw [h1, h2]
    exact Cong.mul Cong.rfl (Cong.pow k x255_cong)

theorem gexpUpNormAux_spec : ∀ (fuel : Nat) (n : Int), 0 ≤ n + 255 * fuel →
    0 ≤ gexpUpNormAux fuel n ∧ gexpUpNormAux fuel n % 255 = n % 255 := by
  intro fuel
  induction fuel with
  | zero =>
    intro n hn
    rw [gexpUpNormAux]
    exact ⟨by omega, rfl⟩
  | succ k ih =>
    intro n hn
    rw [gexpUpNormAux]
    by_cases h : n < 0
    · rw [if_pos h]
      have hmod : (n + 255) % 255 = n % 255 := by omega
      have := ih (n + 255) (by omega)
      exact ⟨this.1, by rw [this.2, hmod]⟩
    · rw [if_neg h]
      exact ⟨by omega, rfl⟩

theorem gexpUpNorm_spec (n : Int) :
    0 ≤ gexpUpNorm n ∧ gexpUpNorm n % 255 = n % 255 := by
  unfold gexpUpNorm
  apply gexpUpNormAux_spec
  omega

theorem gexpDownNormAux_spec : ∀ (fuel : Nat) (n : Int), n ≤ 255 + 255 * fuel →
    0 ≤ n →
    0 ≤ gexpDownNormAux fuel n ∧ gexpDownNormAux fuel n ≤ 255 ∧
      gexpDownNormAux fuel n % 255 = n % 255 := by
  intro fuel
  induction fuel with
  | zero =>
    intro n hk hn
    rw [gexpDownNormAux]
    exact ⟨hn, by omega, rfl⟩
  | succ k ih =>
    intro n hk hn
    rw [gexpDownNormAux]
    by_cases h : 256 ≤ n
    · rw [if_pos h]
      have hmod : (n - 255) % 255 = n % 255 := by omega
      have := ih (n - 255) (by omega) (by omega)
      exact ⟨this.1, this.2.1, by rw [this.2.2, hmod]⟩
    · rw [if_neg h]
      exact ⟨hn, by omega, rfl⟩

theorem gexpDownNorm_spec (n : Int) (hn : 0 ≤ n) :
    0 ≤ gexpDownNorm n ∧ gexpDownNorm n ≤ 255 ∧
      gexpDownNorm n % 255 = n % 255 := by
  unfold gexpDownNorm
  apply gexpDownNormAux_spec _ _ (by omega) hn

theorem gexp_spec (n : Int) : ∃ r : Nat, r ≤ 255 ∧ (r : Int) % 255 = n % 255 ∧
    gexp n = EXP_TABLE.getD r 0 := by
  have hu := gexpUpNorm_spec n
  have hd := gexpDownNorm_spec (gexpUpNorm n) hu.1
  refine ⟨(gexpDownNorm (gexpUpNorm n)).toNat, by omega, ?_, rfl⟩
  have hcast : ((gexpDownNorm (gexpUpNorm n)).toNat : Int) =
      gexpDownNorm (gexpUpNorm n) := Int.toNat_of_nonneg hd.1
  rw [hcast, hd.2.2, hu.2]

theorem gexp_cong (n : Int) : Cong (toPoly (gexp n)) (XP n) := by
  obtain ⟨r, hr, hmod, heq⟩ := gexp_spec n
  rw [heq, XP]
  apply Cong.trans (expPoly_cong r hr)
  apply xpow_cong_of_modEq
  show r % 255 = (n % 255).toNat % 255
  omega

theorem gexp_bounds (n : Int) : 1 ≤ gexp n ∧ gexp n ≤ 255 := by
  obtain ⟨r, hr, _, heq⟩ := gexp_spec n
  rw [heq]
  exact exp_bounds r (by omega)

theorem gexp_glog (a : Nat) (h1 : 1 ≤ a) (h2 : a ≤ 255) :
    gexp ((glogT a : Int)) = a := by
  have hg := glog_spec a h1 h2
  unfold gexp
  have hup : gexpUpNorm ((glogT a : Int)) = (glogT a : Int) := by
    unfold gexpUpNorm
    have h0 : (-(glogT a : Int)).toNat = 0 := by omega
    rw [h0, gexpUpNormAux]
  have hdown : gexpDownNorm ((glogT a : Int)) = (glogT a : Int) := by
    unfold gexpDownNorm
    cases hk : ((glogT a : Int)).toNat with
    | zero => rw [gexpDownNormAux]
    | succ k =>
      rw [gexpDownNormAux, if_neg (by omega)]
  rw [hup, hdown, Int.toNat_natCast]
  exact hg.2

theorem XP_add_cong (y z : Int) : Cong (XP (y + z)) (XP y * XP z) := by
  unfold XP
  rw [← pow_add]
  apply xpow_cong_of_modEq
  show ((y + z) % 255).toNat % 255 = ((y % 255).toNat + (z % 255).toNat) % 255
  have hyz : (y + z) % 255 = (y % 255 + z % 255) % 255 := by
    conv_lhs => rw [Int.add_emod]
  omega

theorem XP_glog (a : Nat) (h1 : 1 ≤ a) (h2 : a ≤ 255) :
    Cong (XP ((glogT a : Int))) (toPoly a) := by
  have hg := glog_spec a h1 h2
  have h := gexp_cong ((glogT a : Int))
  rw [gexp_glog a h1 h2] at h
  exact h.symm

theorem evp_foldl (cs : List Nat) (W : MPoly) :
    ∀ acc, cs.foldl (fun a c => a * W + toPoly c) acc =
      acc * W ^ cs.length + EvP cs W := by
  induction cs with
  | nil =>
    intro acc
    unfold EvP
    simp
  | cons c cs ih =>
    intro acc
    rw [List.foldl_cons, ih (acc * W + toPoly c)]
    unfold EvP
    rw [List.foldl_cons, ih ((0 : MPoly) * W + toPoly c), List.length_cons]
    unfold EvP
    ring

theorem EvP_append (a b : List Nat) (W : MPoly) :
    EvP (a ++ b) W = EvP a W * W ^ b.length + EvP b W := by
  unfold EvP
  rw [List.foldl_append]
  exact evp_foldl b W _

theorem EvP_replicate_zero (k : Nat) (W : MPoly) :
    EvP (List.replicate k 0) W = 0 := by
  induction k with
  | zero => rfl
  | succ k ih =>
    rw [List.replicate_succ]
    unfold EvP
    rw [List.foldl_cons]
    have h0 : (0 : MPoly) * W + toPoly 0 = 0 := by
      rw [toPoly_zero]
      ring
    rw [h0]
    exact ih

theorem EvP_dropWhile_zero (l : List Nat) (W : MPoly) :
    EvP (l.dropWhile (· == 0)) W = EvP l W := by
  induction l with
  | nil => rfl
  | cons c l ih =>
    by_cases hc : c = 0
    · subst hc
      rw [List.dropWhile_cons_of_pos (by simp)]
      rw [ih]
      unfold EvP
      rw [List.foldl_cons]
      have h0 : (0 : MPoly) * W + toPoly 0 = 0 := by
        rw [toPoly_zero]
        ring
      rw [h0]
    · rw [List.dropWhile_cons_of_neg (by simp [hc])]

theorem EvP_zipWith_xor :
    ∀ (l s : List Nat) (W : MPoly) (a₁ a₂ : MPoly), l.length = s.length →
      (List.zipWith (· ^^^ ·) l s).foldl (fun a c => a * W + toPoly c) (a₁ + a₂) =
        l.foldl (fun a c => a * W + toPoly c) a₁ +
        s.foldl (fun a c => a * W + toPoly c) a₂ := by
  intro l
  induction l with
  | nil =>
    intro s W a₁ a₂ hlen
    cases s with
    | nil => rfl
    | cons x xs => simp at hlen
  | cons c l ih =>
    intro s W a₁ a₂ hlen
    cases s with
    | nil => simp at hlen
    | cons x xs =>
      rw [List.zipWith_cons_cons, List.foldl_cons, List.foldl_cons,
        List.foldl_cons]
      have hstep : (a₁ + a₂) * W + toPoly (c ^^^ x) =
          (a₁ * W + toPoly c) + (a₂ * W + toPoly x) := by
        rw [toPoly_xor]
        ring
      rw [hstep]
      exact ih xs W _ _ (by simpa using hlen)

theorem EvP_zip_xor (l s : List Nat) (W : MPoly) (hlen : l.length = s.length) :
    EvP (List.zipWith (· ^^^ ·) l s) W = EvP l W + EvP s W := by
  unfold EvP
  have h := EvP_zipWith_xor l s W 0 0 hlen
  simpa using h

theorem EvP_map_scaled (f : Nat → Nat) (R W : MPoly) :
    ∀ (l : List Nat) (a₁ a₂ : MPoly),
      (∀ c ∈ l, Cong (toPoly (f c)) (R * toPoly c)) → Cong a₁ (R * a₂) →
      Cong ((l.map f).foldl (fun a c => a * W + toPoly c) a₁)
        (R * l.foldl (fun a c => a * W + toPoly c) a₂) := by
  intro l
  induction l with
  | nil =>
    intro a₁ a₂ _ hacc
    exact hacc
  | cons c l ih =>
    intro a₁ a₂ hpt hacc
    rw [List.map_cons, List.foldl_cons, List.foldl_cons]
    apply ih
    · intro d hd
      exact hpt d (List.mem_cons_of_mem c hd)
    · have h1 : Cong (a₁ * W + toPoly (f c)) (R * a₂ * W + R * toPoly c) :=
        (Cong.mul hacc Cong.rfl).add (hpt c (List.mem_cons_self c l))
      apply h1.trans
      apply Cong.of_eq
      ring

theorem gfMul_cong (a b : Nat) (ha : a ≤ 255) (hb : b ≤ 255) :
    Cong (toPoly (gfMul a b)) (toPoly a * toPoly b) := by
  unfold gfMul
  by_cases h : a = 0 ∨ b = 0
  · rw [if_pos h]
    apply Cong.of_eq
    rcases h with h | h <;> subst h <;> rw [toPoly_zero] <;> ring
  · rw [if_neg h]
    push_neg at h
    apply (gexp_cong _).trans
    apply (XP_add_cong _ _).trans
    exact Cong.mul (XP_glog a (by omega) ha) (XP_glog b (by omega) hb)

theorem gfMul_le (a b : Nat) : gfMul a b ≤ 255 := by
  unfold gfMul
  by_cases h : a = 0 ∨ b = 0
  · rw [if_pos h]
    omega
  · rw [if_neg h]
    exact (gexp_bounds _).2

theorem evalPoly_cong_aux (w : Nat) (hw : w ≤ 255) :
    ∀ (cs : List Nat) (acc : Nat) (accP : MPoly), (∀ c ∈ cs, c ≤ 255) →
      acc ≤ 255 → Cong (toPoly acc) accP →
      Cong (toPoly (cs.foldl (fun a c => gfMul a w ^^^ c) acc))
        (cs.foldl (fun a c => a * toPoly w + toPoly c) accP) := by
  intro cs
  induction cs with
  | nil =>
    intro acc accP _ _ hacc
    exact hacc
  | cons c cs ih =>
    intro acc accP hcs hle hacc
    rw [List.foldl_cons, List.foldl_cons]
    apply ih
    · intro d hd
      exact hcs d (List.mem_cons_of_mem c hd)
    · have h1 := gfMul_le acc w
      have h2 := hcs c (List.mem_cons_self c cs)
      have h3 : gfMul acc w ^^^ c < 2 ^ 8 := Nat.xor_lt_two_pow (by omega) (by omega)
      omega
    · rw [toPoly_xor]
      apply Cong.add _ Cong.rfl
      apply (gfMul_cong acc w hle hw).trans
      exact Cong.mul hacc Cong.rfl

theorem evalPoly_cong (cs : List Nat) (w : Nat) (hcs : ∀ c ∈ cs, c ≤ 255)
    (hw : w ≤ 255) : Cong (toPoly (evalPoly cs w)) (EvP cs (toPoly w)) := by
  unfold evalPoly EvP
  apply evalPoly_cong_aux w hw cs 0 0 hcs (by omega)
  rw [toPoly_zero]
  exact Cong.rfl

theorem evalPoly_le (cs : List Nat) (w : Nat) (hcs : ∀ c ∈ cs, c ≤ 255) :
    evalPoly cs w ≤ 255 := by
  unfold evalPoly
  generalize hacc : (0 : Nat) = acc
  have hle : acc ≤ 255 := by omega
  clear hacc
  induction cs generalizing acc with
  | nil => exact hle
  | cons c cs ih =>
    rw [List.foldl_cons]
    apply ih
    · intro d hd
      exact hcs d (List.mem_cons_of_mem c hd)
    · have h1 := gfMul_le acc w
      have h2 := hcs c (List.mem_cons_self c cs)
      have h3 : gfMul acc w ^^^ c < 2 ^ 8 := Nat.xor_lt_two_pow (by omega) (by omega)
      omega

theorem getAt_eq_getD (p : Polynomial) (i : Nat) : p.getAt i = p.num.getD i 0 := rfl

theorem poly_mk_num (l : List Nat) : (Polynomial.mk l).num = l := rfl

theorem modStep_map_eq (p e : Polynomial) (hle : e.getLength ≤ p.getLength) :
    (List.range p.getLength).map (fun i =>
      if i < e.getLength then p.getAt i ^^^ gexp ((glogT (e.getAt i) : Int) +
        ((glogT (p.getAt 0) : Int) - glogT (e.getAt 0)))
      else p.getAt i) =
    List.zipWith (· ^^^ ·) p.num
      (e.num.map (fun c => gexp ((glogT c : Int) +
        ((glogT (p.getAt 0) : Int) - glogT (e.getAt 0)))) ++
       List.replicate (p.getLength - e.getLength) 0) := by
  have hlen1 : (e.num.map (fun c => gexp ((glogT c : Int) +
      ((glogT (p.getAt 0) : Int) - glogT (e.getAt 0)))) ++
      List.replicate (p.getLength - e.getLength) 0).length = p.getLength := by
    rw [List.length_append, List.length_map, List.length_replicate]
    unfold Polynomial.getLength at hle ⊢
    omega
  apply List.ext_getElem
  · rw [List.length_map, List.length_range, List.length_zipWith, hlen1]
    unfold Polynomial.getLength
    omega
  · intro i h1 h2
    rw [List.getElem_map, List.getElem_range, List.getElem_zipWith]
    rw [List.length_map, List.length_range] at h1
    by_cases hi : i < e.getLength
    · rw [if_pos hi, List.getElem_append_left (by rw [List.length_map]; exact hi),
        List.getElem_map]
      rw [getAt_eq_getD, getAt_eq_getD,
        List.getD_eq_getElem p.num 0 h1, List.getD_eq_getElem e.num 0 hi]
    · rw [if_neg hi, List.getElem_append_right
        (by rw [List.length_map]; show e.num.length ≤ i;
            have hee : e.getLength = e.num.length := rfl; omega)]
      rw [List.getElem_replicate, Nat.xor_zero, getAt_eq_getD,
        List.getD_eq_getElem p.num 0 h1]

theorem modStep_cong (p e : Polynomial) (W : MPoly)
    (hle : e.getLength ≤ p.getLength)
    (he : ∀ c ∈ e.num, 1 ≤ c ∧ c ≤ 255)
    (hgen : Cong (EvP e.num W) 0) :
    Cong (EvP (p.modStep e).num W) (EvP p.num W) := by
  have hnum : (p.modStep e).num =
      (List.zipWith (· ^^^ ·) p.num
        (e.num.map (fun c => gexp ((glogT c : Int) +
          ((glogT (p.getAt 0) : Int) - glogT (e.getAt 0)))) ++
         List.replicate (p.getLength - e.getLength) 0)).dropWhile (· == 0) := by
    show (Polynomial.make _ 0).num = _
    unfold Polynomial.make
    rw [List.replicate_zero, List.append_nil, modStep_map_eq p e hle]
  rw [hnum, EvP_dropWhile_zero]
  have hlen : p.num.length =
      (e.num.map (fun c => gexp ((glogT c : Int) +
        ((glogT (p.getAt 0) : Int) - glogT (e.getAt 0)))) ++
       List.replicate (p.getLength - e.getLength) 0).length := by
    rw [List.length_append, List.length_map, List.length_replicate]
    have h1 : e.getLength = e.num.length := rfl
    have h2 : p.getLength = p.num.length := rfl
    omega
  rw [EvP_zip_xor _ _ _ hlen, EvP_append, EvP_replicate_zero]
  have hmap : Cong (EvP (e.num.map (fun c => gexp ((glogT c : Int) +
      ((glogT (p.getAt 0) : Int) - glogT (e.getAt 0))))) W)
      (XP ((glogT (p.getAt 0) : Int) - glogT (e.getAt 0)) * EvP e.num W) := by
    show Cong ((e.num.map _).foldl (fun a c => a * W + toPoly c) 0)
      (XP ((glogT (p.getAt 0) : Int) - glogT (e.getAt 0)) *
        e.num.foldl (fun a c => a * W + toPoly c) 0)
    apply EvP_map_scaled
    · intro c hc
      apply (gexp_cong _).trans
      apply (XP_add_cong _ _).trans
      exact (Cong.mul (XP_glog c (he c hc).1 (he c hc).2) Cong.rfl).trans
        (Cong.of_eq (by ring))
    · exact Cong.of_eq (by ring)
  have h2 : Cong (EvP (e.num.map (fun c => gexp ((glogT c : Int) +
      ((glogT (p.getAt 0) : Int) - glogT (e.getAt 0))))) W) 0 :=
    (hmap.trans (Cong.mul Cong.rfl hgen)).trans (Cong.of_eq (by ring))
  generalize hEM : EvP (e.num.map (fun c => gexp ((glogT c : Int) +
    ((glogT (p.getAt 0) : Int) - glogT (e.getAt 0))))) W = EM at h2 ⊢
  have h3 := (Cong.mul h2 (@Cong.rfl
    (W ^ (List.replicate (p.getLength - e.getLength) (0 : Nat)).length))).trans
    (Cong.of_eq (zero_mul _))
  have hre : EvP p.num W +
      (EM * W ^ (List.replicate (p.getLength - e.getLength) (0 : Nat)).length + 0) =
      EvP p.num W +
      EM * W ^ (List.replicate (p.getLength - e.getLength) (0 : Nat)).length := by
    ring
  rw [hre]
  exact (Cong.add (@Cong.rfl (EvP p.num W)) h3).trans (Cong.of_eq (add_zero _))

theorem modAux_cong : ∀ (fuel : Nat) (p e : Polynomial) (W : MPoly),
    (∀ c ∈ e.num, 1 ≤ c ∧ c ≤ 255) → Cong (EvP e.num W) 0 →
    Cong (EvP (Polynomial.modAux fuel p e).num W) (EvP p.num W) := by
  intro fuel
  induction fuel with
  | zero =>
    intro p e W he hgen
    rw [Polynomial.modAux]
    by_cases h : p.getLength < e.getLength
    · rw [if_pos h]
      exact Cong.rfl
    · rw [if_neg h]
      exact Cong.rfl
  | succ fuel ih =>
    intro p e W he hgen
    rw [Polynomial.modAux]
    by_cases h : p.getLength < e.getLength
    · rw [if_pos h]
      exact Cong.rfl
    · rw [if_neg h]
      exact (ih (p.modStep e) e W he hgen).trans (modStep_cong p e W (by omega) he hgen)

theorem dropWhile_zero_length (l : List Nat) :
    (l.dropWhile (· == 0)).length ≤ l.length := by
  induction l with
  | nil => simp
  | cons c l ih =>
    by_cases hc : c = 0
    · subst hc
      rw [List.dropWhile_cons_of_pos (by simp)]
      simp only [List.length_cons]
      omega
    · rw [List.dropWhile_cons_of_neg (by simp [hc])]

theorem dropWhile_zero_head (l : List Nat) :
    (l.dropWhile (· == 0)) ≠ [] → (l.dropWhile (· == 0)).getD 0 0 ≠ 0 := by
  induction l with
  | nil => simp
  | cons c l ih =>
    by_cases hc : c = 0
    · subst hc
      rw [List.dropWhile_cons_of_pos (by simp)]
      exact ih
    · rw [List.dropWhile_cons_of_neg (by simp [hc])]
      intro _
      simpa using hc

theorem modStep_num_eq (p e : Polynomial) (hle : e.getLength ≤ p.getLength) :
    (p.modStep e).num =
      (List.zipWith (· ^^^ ·) p.num
        (e.num.map (fun c => gexp ((glogT c : Int) +
          ((glogT (p.getAt 0) : Int) - glogT (e.getAt 0)))) ++
         List.replicate (p.getLength - e.getLength) 0)).dropWhile (· == 0) := by
  show (Polynomial.make _ 0).num = _
  unfold Polynomial.make
  rw [List.replicate_zero, List.append_nil, modStep_map_eq p e hle]

theorem modStep_length (p e : Polynomial) (hle : e.getLength ≤ p.getLength)
    (hel : 1 ≤ e.getLength) (hp0 : 1 ≤ p.getAt 0) (hp0b : p.getAt 0 ≤ 255) :
    (p.modStep e).getLength < p.getLength := by
  obtain ⟨p0, ptail, hp⟩ : ∃ x xs, p.num = x :: xs := by
    have h1 : p.getLength = p.num.length := rfl
    cases hn : p.num with
    | nil =>
      rw [hn] at h1
      simp at h1
      omega
    | cons x xs => exact ⟨x, xs, rfl⟩
  obtain ⟨e0, etail, hee⟩ : ∃ x xs, e.num = x :: xs := by
    have h1 : e.getLength = e.num.length := rfl
    cases hn : e.num with
    | nil =>
      rw [hn] at h1
      simp at h1
      omega
    | cons x xs => exact ⟨x, xs, rfl⟩
  show (Polynomial.make _ 0).num.length < _
  unfold Polynomial.make
  rw [List.replicate_zero, List.append_nil, modStep_map_eq p e hle]
  rw [hp, hee, List.map_cons, List.cons_append, List.zipWith_cons_cons]
  have hfe : e.getAt 0 = e0 := by
    rw [getAt_eq_getD, hee]
    rfl
  have hfp : p.getAt 0 = p0 := by
    rw [getAt_eq_getD, hp]
    rfl
  rw [hfp] at hp0 hp0b
  rw [hfe, hfp]
  have harg : (glogT e0 : Int) + ((glogT p0 : Int) - glogT e0) =
      ((glogT p0 : Int)) := by
    ring
  rw [harg, gexp_glog p0 hp0 hp0b, Nat.xor_self]
  rw [List.dropWhile_cons_of_pos (by simp)]
  have h1 := dropWhile_zero_length (List.zipWith (· ^^^ ·) ptail
    (etail.map (fun c => gexp ((glogT c : Int) +
      ((glogT p0 : Int) - glogT e0))) ++
     List.replicate (p.getLength - e.getLength) 0))
  have h2 : (List.zipWith (· ^^^ ·) ptail
      (etail.map (fun c => gexp ((glogT c : Int) +
        ((glogT p0 : Int) - glogT e0))) ++
       List.replicate (p.getLength - e.getLength) 0)).length ≤ ptail.length := by
    rw [List.length_zipWith]
    omega
  have h3 : p.getLength = p.num.length := rfl
  rw [hp] at h3
  simp only [List.length_cons] at h3
  rw [poly_mk_num]
  omega

theorem zipWith_xor_le (l s : List Nat) (hl : ∀ a ∈ l, a ≤ 255)
    (hs : ∀ a ∈ s, a ≤ 255) : ∀ c ∈ List.zipWith (· ^^^ ·) l s, c ≤ 255 := by
  induction l generalizing s with
  | nil =>
    intro c hc
    simp at hc
  | cons a l ih =>
    intro c hc
    cases s with
    | nil => simp at hc
    | cons b s =>
      rw [List.zipWith_cons_cons] at hc
      rcases List.mem_cons.mp hc with hc1 | hc1
      · subst hc1
        have ha := hl a (List.mem_cons_self a l)
        have hb := hs b (List.mem_cons_self b s)
        have := Nat.xor_lt_two_pow (by omega : a < 2 ^ 8) (by omega : b < 2 ^ 8)
        omega
      · exact ih s (fun x hx => hl x (List.mem_cons_of_mem a hx))
          (fun x hx => hs x (List.mem_cons_of_mem b hx)) c hc1

theorem modStep_coeff_le (p e : Polynomial) (hle : e.getLength ≤ p.getLength)
    (hp : ∀ c ∈ p.num, c ≤ 255) :
    ∀ c ∈ (p.modStep e).num, c ≤ 255 := by
  intro c hc
  rw [modStep_num_eq p e hle] at hc
  have hc2 : c ∈ List.zipWith (· ^^^ ·) p.num
      (e.num.map (fun d => gexp ((glogT d : Int) +
        ((glogT (p.getAt 0) : Int) - glogT (e.getAt 0)))) ++
       List.replicate (p.getLength - e.getLength) 0) :=
    (List.dropWhile_sublist _).subset hc
  apply zipWith_xor_le p.num _ hp _ c hc2
  intro a ha
  rcases List.mem_append.mp ha with hm | hm
  · obtain ⟨d, _, hd⟩ := List.mem_map.mp hm
    rw [← hd]
    exact (gexp_bounds _).2
  · have := List.eq_of_mem_replicate hm
    omega

theorem modStep_head (p e : Polynomial) (hle : e.getLength ≤ p.getLength) :
    (p.modStep e).num ≠ [] → (p.modStep e).num.getD 0 0 ≠ 0 := by
  rw [modStep_num_eq p e hle]
  exact dropWhile_zero_head _

theorem modAux_length : ∀ (fuel : Nat) (p e : Polynomial),
    (∀ c ∈ e.num, 1 ≤ c ∧ c ≤ 255) → 1 ≤ e.getLength →
    (∀ c ∈ p.num, c ≤ 255) → (e.getLength ≤ p.getLength → p.num.getD 0 0 ≠ 0) →
    p.getLength ≤ fuel →
    (Polynomial.modAux fuel p e).getLength < e.getLength := by
  intro fuel
  induction fuel with
  | zero =>
    intro p e he hel hp hph hfuel
    rw [Polynomial.modAux]
    rw [if_pos (by omega)]
    omega
  | succ fuel ih =>
    intro p e he hel hp hph hfuel
    rw [Polynomial.modAux]
    by_cases h : p.getLength < e.getLength
    · rw [if_pos h]
      exact h
    · rw [if_neg h]
      have hpn : p.num ≠ [] := by
        intro hnil
        have h1 : p.getLength = p.num.length := rfl
        rw [hnil] at h1
        simp at h1
        omega
      have hp0 : 1 ≤ p.getAt 0 := by
        have := hph (by omega)
        rw [getAt_eq_getD]
        omega
      have hp0b : p.getAt 0 ≤ 255 := by
        rw [getAt_eq_getD]
        cases hn : p.num with
        | nil => exact absurd hn hpn
        | cons x xs =>
          have : x ∈ p.num := by
            rw [hn]
            exact List.mem_cons_self x xs
          have := hp x this
          simpa using this
      have hlt := modStep_length p e (by omega) hel hp0 hp0b
      apply ih (p.modStep e) e he hel
      · exact modStep_coeff_le p e (by omega) hp
      · intro hle2
        apply modStep_head p e (by omega)
        intro hnil
        have h1 : (p.modStep e).getLength = (p.modStep e).num.length := rfl
        rw [hnil] at h1
        simp at h1
        omega
      · omega

theorem mod_cong (p e : Polynomial) (W : MPoly)
    (he : ∀ c ∈ e.num, 1 ≤ c ∧ c ≤ 255) (hgen : Cong (EvP e.num W) 0) :
    Cong (EvP (p.mod e).num W) (EvP p.num W) :=
  modAux_cong p.getLength p e W he hgen

theorem mod_length (p e : Polynomial)
    (he : ∀ c ∈ e.num, 1 ≤ c ∧ c ≤ 255) (hel : 1 ≤ e.getLength)
    (hp : ∀ c ∈ p.num, c ≤ 255)
    (hph : e.getLength ≤ p.getLength → p.num.getD 0 0 ≠ 0) :
    (p.mod e).getLength < e.getLength :=
  modAux_length p.getLength p e he hel hp hph (le_refl _)

theorem modAux_coeff_le : ∀ (fuel : Nat) (p e : Polynomial),
    (∀ c ∈ p.num, c ≤ 255) →
    ∀ c ∈ (Polynomial.modAux fuel p e).num, c ≤ 255 := by
  intro fuel
  induction fuel with
  | zero =>
    intro p e hp
    rw [Polynomial.modAux]
    by_cases h : p.getLength < e.getLength
    · rw [if_pos h]
      exact hp
    · rw [if_neg h]
      exact hp
  | succ fuel ih =>
    intro p e hp
    rw [Polynomial.modAux]
    by_cases h : p.getLength < e.getLength
    · rw [if_pos h]
      exact hp
    · rw [if_neg h]
      exact ih (p.modStep e) e (modStep_coeff_le p e (by omega) hp)

theorem mod_coeff_le (p e : Polynomial) (hp : ∀ c ∈ p.num, c ≤ 255) :
    ∀ c ∈ (p.mod e).num, c ≤ 255 :=
  modAux_coeff_le p.getLength p e hp

set_option maxHeartbeats 12000000 in
theorem gen_facts_b :
    (ECC_LENGTHS.all fun t =>
      ((getErrorCorrectPolynomialF t).getLength == t + 1)
      && ((getErrorCorrectPolynomialF t).num.all fun c =>
            decide (1 ≤ c) && decide (c ≤ 255))
      && ((List.range t).all fun i =>
            evalPolyF (getErrorCorrectPolynomialF t).num (gexpF (i : Int)) == 0)) =
      true := by rfl

theorem gen_facts (t : Nat) (ht : t ∈ ECC_LENGTHS) :
    (getErrorCorrectPolynomial t).getLength = t + 1 ∧
    (∀ c ∈ (getErrorCorrectPolynomial t).num, 1 ≤ c ∧ c ≤ 255) ∧
    (∀ i, i < t → evalPoly (getErrorCorrectPolynomial t).num (gexp (i : Int)) = 0) := by
  rw [gen_poly_eq, evalPoly_eq, gexp_eq]
  have h := gen_facts_b
  rw [List.all_eq_true] at h
  have hh := h t ht
  simp only [Bool.and_eq_true, beq_iff_eq, List.all_eq_true, decide_eq_true_eq] at hh
  obtain ⟨⟨h1, h2⟩, h3⟩ := hh
  refine ⟨h1, fun c hc => ⟨(h2 c hc).1, (h2 c hc).2⟩, fun i hi => h3 i (List.mem_range.mpr hi)⟩

theorem rs_table_ecc :
    ∀ row ∈ RS_BLOCK_TABLE, ∀ i, i < row.length / 3 →
      (row.getD (i * 3 + 1) 0 - row.getD (i * 3 + 2) 0) ∈ ECC_LENGTHS := by decide

theorem expand_row_ecc (row : List Nat) (hrow : row = [] ∨ row ∈ RS_BLOCK_TABLE) :
    ∀ b ∈ ((List.range (row.length / 3)).flatMap fun i =>
      List.replicate (row.getD (i * 3) 0)
        (⟨row.getD (i * 3 + 1) 0, row.getD (i * 3 + 2) 0⟩ : RSBlock)),
      b.getTotalCount - b.getDataCount ∈ ECC_LENGTHS := by
  intro b hb
  rw [List.mem_flatMap] at hb
  obtain ⟨i, hi, hrep⟩ := hb
  have hb2 := List.eq_of_mem_replicate hrep
  subst hb2
  rcases hrow with hrow | hrow
  · subst hrow
    simp at hi
  · exact rs_table_ecc row hrow i (List.mem_range.mp hi)

theorem getRSBlocks_ecc (version level : Nat) (blocks : List RSBlock)
    (h : getRSBlocks version level = .ok blocks) :
    ∀ b ∈ blocks, b.getTotalCount - b.getDataCount ∈ ECC_LENGTHS := by
  have hrowmem : ∀ idx : Nat, RS_BLOCK_TABLE.getD idx [] = [] ∨
      RS_BLOCK_TABLE.getD idx [] ∈ RS_BLOCK_TABLE := by
    intro idx
    by_cases hidx : idx < RS_BLOCK_TABLE.length
    · right
      rw [List.getD_eq_getElem _ _ hidx]
      exact List.getElem_mem _
    · left
      exact List.getD_eq_default _ _ (by omega)
  unfold getRSBlocks getRSBlockTable at h
  split_ifs at h
  all_goals
    first
    | (simp only [Except.map, Except.ok.injEq] at h
       subst h
       exact expand_row_ecc _ (hrowmem _))
    | simp [Except.map] at h

theorem createBlockData_eq (buffer : BitBuffer) (rsBlocks : List RSBlock) :
    createBlockData buffer rsBlocks =
      (rsBlocks.foldl (blockStep buffer) (0, [])).2 := rfl

theorem blockStep_eq (buffer : BitBuffer) (st : Nat × List (List Nat × List Nat))
    (rsBlock : RSBlock) :
    blockStep buffer st rsBlock =
      (st.1 + rsBlock.getDataCount, st.2 ++ [blockOf buffer st.1 rsBlock]) := rfl

theorem createBlockData_mem_aux (buffer : BitBuffer) :
    ∀ (bs : List RSBlock) (st : Nat × List (List Nat × List Nat))
      (x : List Nat × List Nat), x ∈ (bs.foldl (blockStep buffer) st).2 →
      x ∈ st.2 ∨ ∃ b ∈ bs, ∃ offset, x = blockOf buffer offset b := by
  intro bs
  induction bs with
  | nil =>
    intro st x hx
    exact Or.inl hx
  | cons b bs ih =>
    intro st x hx
    rw [List.foldl_cons] at hx
    rcases ih (blockStep buffer st b) x hx with hin | ⟨b2, hb2, offset, hoff⟩
    · rw [blockStep_eq] at hin
      rcases List.mem_append.mp hin with hin | hin
      · exact Or.inl hin
      · right
        refine ⟨b, List.mem_cons_self b bs, st.1, ?_⟩
        simpa using hin
    · exact Or.inr ⟨b2, List.mem_cons_of_mem b hb2, offset, hoff⟩

theorem createBlockData_mem (buffer : BitBuffer) (rsBlocks : List RSBlock)
    (x : List Nat × List Nat) (h : x ∈ createBlockData buffer rsBlocks) :
    ∃ b ∈ rsBlocks, ∃ offset, x = blockOf buffer offset b := by
  rw [createBlockData_eq] at h
  rcases createBlockData_mem_aux buffer rsBlocks (0, []) x h with hin | hex
  · simp at hin
  · exact hex

theorem ec_map_split (l : List Nat) (N : Nat) (hlen : l.length ≤ N) :
    (List.range N).map (fun (k : Nat) =>
      if 0 ≤ (k : Int) + l.length - N
      then l.getD ((k : Int) + l.length - N).toNat 0 else 0) =
    List.replicate (N - l.length) 0 ++ l := by
  apply List.ext_getElem?
  intro k
  rw [List.getElem?_map]
  by_cases hk3 : N ≤ k
  · rw [List.getElem?_eq_none (by rw [List.length_range]; omega),
      List.getElem?_eq_none (by rw [List.length_append, List.length_replicate]; omega)]
    rfl
  · rw [List.getElem?_range (by omega : k < N)]
    by_cases hk1 : k < N - l.length
    · rw [List.getElem?_append_left (by rw [List.length_replicate]; omega)]
      rw [List.getElem?_eq_getElem (by rw [List.length_replicate]; omega)]
      rw [List.getElem_replicate]
      rw [Option.map_some']
      rw [if_neg (by omega)]
    · rw [List.getElem?_append_right (by rw [List.length_replicate]; omega)]
      rw [Option.map_some']
      rw [if_pos (by omega)]
      have htn : ((k : Int) + l.length - N).toNat = k + l.length - N := by omega
      rw [htn]
      have hidx : k + l.length - N < l.length := by omega
      rw [List.getD_eq_getElem _ _ hidx]
      rw [List.getElem?_eq_getElem (by rw [List.length_replicate]; omega)]
      congr 2
      rw [List.length_replicate]
      omega

theorem blockOf_roots (buffer : BitBuffer) (offset : Nat) (b : RSBlock)
    (ht : b.getTotalCount - b.getDataCount ∈ ECC_LENGTHS)
    (i : Nat) (hi : i < (blockOf buffer offset b).2.length) :
    evalPoly ((blockOf buffer offset b).1 ++ (blockOf buffer offset b).2)
      (gexp (i : Int)) = 0 := by
  obtain ⟨glen, gcoef, groots⟩ := gen_facts (b.getTotalCount - b.getDataCount) ht
  set t := b.getTotalCount - b.getDataCount with hT
  set gen := getErrorCorrectPolynomial t with hG
  set dc := (List.range b.getDataCount).map
    (fun k => 0xff &&& buffer.buffer.getD (k + offset) 0) with hDC
  set raw := Polynomial.make dc (gen.getLength - 1) with hRAW
  set m := raw.mod gen with hM
  have hg1 : gen.getLength - 1 = t := by omega
  have hel : 1 ≤ gen.getLength := by omega
  have hml : m.getLength = m.num.length := rfl
  have hfst : (blockOf buffer offset b).1 = dc := rfl
  have hsnd : (blockOf buffer offset b).2 =
      (List.range (gen.getLength - 1)).map (fun (k : Nat) =>
        if 0 ≤ (k : Int) + (m.getLength : Int) - ((gen.getLength - 1 : Nat) : Int)
        then m.getAt ((k : Int) + (m.getLength : Int) -
          ((gen.getLength - 1 : Nat) : Int)).toNat else 0) := rfl
  have hdcle : ∀ c ∈ dc, c ≤ 255 := by
    intro c hc
    rw [hDC] at hc
    obtain ⟨k, _, hk⟩ := List.mem_map.mp hc
    have hand : 0xff &&& buffer.buffer.getD (k + offset) 0 ≤ 0xff := Nat.and_le_left
    omega
  have hrawnum : raw.num = dc.dropWhile (· == 0) ++
      List.replicate (gen.getLength - 1) 0 := rfl
  have hrawcoef : ∀ c ∈ raw.num, c ≤ 255 := by
    intro c hc
    rw [hrawnum] at hc
    rcases List.mem_append.mp hc with hc | hc
    · exact hdcle c ((List.dropWhile_sublist _).subset hc)
    · have := List.eq_of_mem_replicate hc
      omega
  have hrawhead : gen.getLength ≤ raw.getLength → raw.num.getD 0 0 ≠ 0 := by
    intro hlen
    have hlenr : raw.getLength = raw.num.length := rfl
    rw [hrawnum, List.length_append, List.length_replicate] at hlenr
    have hne : dc.dropWhile (· == 0) ≠ [] := by
      intro hnil
      rw [hnil] at hlenr
      simp at hlenr
      omega
    rw [hrawnum]
    cases hdw : dc.dropWhile (· == 0) with
    | nil => exact absurd hdw hne
    | cons a tl =>
      have hhead := dropWhile_zero_head dc (by rw [hdw]; simp)
      rw [hdw] at hhead
      rw [List.cons_append]
      simpa using hhead
  have hmlen : m.getLength < gen.getLength := mod_length raw gen gcoef hel hrawcoef hrawhead
  have hsl : (blockOf buffer offset b).2.length = t := by
    rw [hsnd, List.length_map, List.length_range, hg1]
  rw [hsl] at hi
  have hwle : gexp (i : Int) ≤ 255 := (gexp_bounds _).2
  have hgen0 : Cong (EvP gen.num (toPoly (gexp (i : Int)))) 0 := by
    have hr := groots i hi
    have hb2 := evalPoly_cong gen.num (gexp (i : Int)) (fun c hc => (gcoef c hc).2) hwle
    rw [hr, toPoly_zero] at hb2
    exact hb2.symm
  have hmcong := mod_cong raw gen (toPoly (gexp (i : Int))) gcoef hgen0
  have hmcoef : ∀ c ∈ m.num, c ≤ 255 := mod_coeff_le raw gen hrawcoef
  have hec : (blockOf buffer offset b).2 =
      List.replicate (t - m.num.length) 0 ++ m.num := by
    rw [hsnd]
    simp only [getAt_eq_getD, hml, hg1]
    exact ec_map_split m.num t (by omega)
  rw [hfst, hec]
  have hcsle : ∀ c ∈ dc ++ (List.replicate (t - m.num.length) 0 ++ m.num), c ≤ 255 := by
    intro c hc
    rcases List.mem_append.mp hc with hc | hc
    · exact hdcle c hc
    · rcases List.mem_append.mp hc with hc | hc
      · have := List.eq_of_mem_replicate hc
        omega
      · exact hmcoef c hc
  apply cong_zero_small _ (by
    have := evalPoly_le (dc ++ (List.replicate (t - m.num.length) 0 ++ m.num))
      (gexp (i : Int)) hcsle
    omega)
  apply (evalPoly_cong _ (gexp (i : Int)) hcsle hwle).trans
  rw [EvP_append, EvP_append, EvP_replicate_zero]
  have hlent : (List.replicate (t - m.num.length) 0 ++ m.num).length = t := by
    rw [List.length_append, List.length_replicate]
    omega
  rw [hlent]
  have hsimp : EvP dc (toPoly (gexp (i : Int))) * toPoly (gexp (i : Int)) ^ t +
      ((0 : MPoly) * toPoly (gexp (i : Int)) ^ m.num.length +
        EvP m.num (toPoly (gexp (i : Int)))) =
      EvP dc (toPoly (gexp (i : Int))) * toPoly (gexp (i : Int)) ^ t +
        EvP m.num (toPoly (gexp (i : Int))) := by
    ring
  rw [hsimp]
  have hraw2 : EvP raw.num (toPoly (gexp (i : Int))) =
      EvP dc (toPoly (gexp (i : Int))) * toPoly (gexp (i : Int)) ^ t := by
    rw [hrawnum, EvP_append, EvP_dropWhile_zero, EvP_replicate_zero,
      List.length_replicate, hg1]
    ring
  have hchain := Cong.add (@Cong.rfl (EvP dc (toPoly (gexp (i : Int))) *
    toPoly (gexp (i : Int)) ^ t)) (hmcong.trans (Cong.of_eq hraw2))
  exact hchain.trans (Cong.of_eq (mpoly_add_self _))

/-- C1: for every RS block (data codewords, ECC codewords) produced by
the encoder's `createBlockData` - for any buffer contents and any
version and error-correct level accepted by `getRSBlocks` - the GF(2^8)
polynomial whose coefficients are the block's bytes highest-degree
first evaluates to 0 at `α^i = gexp i` for every `i` below the ECC
length of the block. -/
theorem createBlockData_rs_roots (version level : Nat) (buffer : BitBuffer)
    (rsBlocks : List RSBlock) (hrs : getRSBlocks version level = .ok rsBlocks)
    (dc ec : List Nat) (hmem : (dc, ec) ∈ createBlockData buffer rsBlocks)
    (i : Nat) (hi : i < ec.length) :
    evalPoly (dc ++ ec) (gexp (i : Int)) = 0 := by
  obtain ⟨b, hb, offset, heq⟩ := createBlockData_mem buffer rsBlocks (dc, ec) hmem
  have ht := getRSBlocks_ecc version level rsBlocks hrs b hb
  have h1 : dc = (blockOf buffer offset b).1 := congrArg Prod.fst heq
  have h2 : ec = (blockOf buffer offset b).2 := congrArg Prod.snd heq
  rw [h1, h2]
  exact blockOf_roots buffer offset b ht i (by rw [← h2]; exact hi)

/-- Witness for `createBlockData_rs_roots`: version 1, level L
(`errorCorrectLevel` 1 on the wire), the all-zero data buffer, block
`(26, 19)`, evaluated at `α^0`. -/
theorem createBlockData_rs_roots_witness :
    getRSBlocks 1 1 = .ok [⟨26, 19⟩] ∧
    (List.replicate 19 0, List.replicate 7 0) ∈
      createBlockData BitBuffer.empty [⟨26, 19⟩] ∧
    (0 : Nat) < (List.replicate 7 (0 : Nat)).length ∧
    evalPoly (List.replicate 19 0 ++ List.replicate 7 0) (gexp ((0 : Nat) : Int)) = 0 :=
  ⟨by rfl, by rw [createBlockData_eq_fast]; decide, by decide,
    createBlockData_rs_roots 1 1 BitBuffer.empty [⟨26, 19⟩] (by rfl)
      (List.replicate 19 0) (List.replicate 7 0)
      (by rw [createBlockData_eq_fast]; decide) 0 (by decide)⟩
end QR
